import Mathlib

/-!
Shallow embedding of the segmentation and feature-extraction core of the
furnace/casting report pipelines (UVNK `core_algorithms.py` /
`report_builder.py` and UPPF `uppf_processor.py`).

Sensor channels are modelled as rational numbers; a missing value (NaN in
the source) is modelled as `none` in an `Option` channel, and every
comparison against `none` is `False`, matching IEEE NaN comparison
semantics used by the Python code.
-/

namespace Programms

/-- Two-argument minimum keeping the first value on ties, as Python
`min` does. -/
def qmin2 (a b : ℚ) : ℚ := if a ≤ b then a else b

/-- Two-argument maximum keeping the first value on ties, as Python
`max` does. -/
def qmax2 (a b : ℚ) : ℚ := if b ≤ a then a else b

/-- Minimum of a nonempty list of rationals (Python `min`); 0 on `[]`
(the callers guard against the empty case). -/
def qmin : List ℚ → ℚ
  | [] => 0
  | x :: xs => xs.foldl qmin2 x

/-- Maximum of a nonempty list of rationals (Python `max`); 0 on `[]`. -/
def qmax : List ℚ → ℚ
  | [] => 0
  | x :: xs => xs.foldl qmax2 x

/-- Pandas-style max over a column with missing values: NaN entries are
skipped, an all-NaN (or empty) column yields NaN (`none`). -/
def maxO (l : List (Option ℚ)) : Option ℚ :=
  match l.filterMap id with
  | [] => none
  | x :: xs => some (xs.foldl qmax2 x)

/-- Pandas-style min over a column with missing values. -/
def minO (l : List (Option ℚ)) : Option ℚ :=
  match l.filterMap id with
  | [] => none
  | x :: xs => some (xs.foldl qmin2 x)

/-- Python slice `l[a:b]` for nonnegative bounds. -/
def pySlice (l : List α) (a b : ℕ) : List α := (l.drop a).take (b - a)

/-- Consecutive differences, as produced by `Series.diff().dropna()`. -/
def diffs (l : List ℚ) : List ℚ := (l.zip l.tail).map (fun p => p.2 - p.1)

/-- Index of the first occurrence of the maximal element of a list of
naturals (`np.argmax`); 0 on `[]`. -/
def argmaxAux : List ℕ → ℕ → ℕ → ℕ → ℕ
  | [], _, best, _ => best
  | c :: rest, i, best, bv =>
    if bv < c then argmaxAux rest (i + 1) i c else argmaxAux rest (i + 1) best bv

/-- First-occurrence argmax over a list of naturals. -/
def argmaxIdx : List ℕ → ℕ
  | [] => 0
  | c :: rest => argmaxAux rest 1 0 c

/-- Position of the first occurrence of the minimum of a rational list
(pandas `idxmin` after `reset_index`); 0 on `[]`. -/
def argminQAux : List ℚ → ℕ → ℕ → ℚ → ℕ
  | [], _, best, _ => best
  | c :: rest, i, best, bv =>
    if c < bv then argminQAux rest (i + 1) i c else argminQAux rest (i + 1) best bv

/-- First-occurrence argmin over a rational list. -/
def argminQIdx : List ℚ → ℕ
  | [] => 0
  | c :: rest => argminQAux rest 1 0 c

/-- Position of the first occurrence of the maximum of a rational list. -/
def argmaxQAux : List ℚ → ℕ → ℕ → ℚ → ℕ
  | [], _, best, _ => best
  | c :: rest, i, best, bv =>
    if bv < c then argmaxQAux rest (i + 1) i c else argmaxQAux rest (i + 1) best bv

/-- First-occurrence argmax over a rational list. -/
def argmaxQIdx : List ℚ → ℕ
  | [] => 0
  | c :: rest => argmaxQAux rest 1 0 c

/-- Position of the first non-NaN maximum of an optional-valued column
(pandas `Series.idxmax` over a positionally indexed series); 0 when the
column is all-NaN (callers guard that case). -/
def idxmaxOAux : List (Option ℚ) → ℕ → Option (ℕ × ℚ) → ℕ
  | [], _, none => 0
  | [], _, some (b, _) => b
  | o :: rest, i, acc =>
    match o, acc with
    | some v, none => idxmaxOAux rest (i + 1) (some (i, v))
    | some v, some (b, bv) =>
      if bv < v then idxmaxOAux rest (i + 1) (some (i, v))
      else idxmaxOAux rest (i + 1) (some (b, bv))
    | none, _ => idxmaxOAux rest (i + 1) acc

/-- First-occurrence NaN-skipping argmax of an optional column. -/
def idxmaxO (l : List (Option ℚ)) : ℕ := idxmaxOAux l 0 none

/-! ## UVNK segmentation: `find_valid_segments_by_form` -/

/-- Value of the `Form` channel at 1-based index `j`; 0 outside the
stream (used only to state boundary conditions of maximal runs). -/
def val (forms : List ℚ) (j : ℕ) : ℚ :=
  if j = 0 then 0 else forms.getD (j - 1) 0

/-- Loop body of `find_valid_segments_by_form`: walks the `Form` channel
with the 1-based `Index` of the current row and the optional start index
of the open run, closing a run at the previous row when a zero is met and
at the last row when the stream ends while active. -/
def segsAux : List ℚ → ℕ → Option ℕ → List (ℕ × ℕ)
  | [], _, none => []
  | [], i, some s => [(s, i - 1)]
  | f :: rest, i, none =>
    if f ≠ 0 then segsAux rest (i + 1) (some i) else segsAux rest (i + 1) none
  | f :: rest, i, some s =>
    if f ≠ 0 then segsAux rest (i + 1) (some s)
    else (s, i - 1) :: segsAux rest (i + 1) none

/-- `find_valid_segments_by_form` over the `Form` channel of a stream
whose `Index` column is `1..n` (as assigned by `add_Index`). -/
def find_valid_segments_by_form (forms : List ℚ) : List (ℕ × ℕ) :=
  segsAux forms 1 none

/-- A maximal run of non-zero `Form` values, as a closed 1-based interval:
in range, non-zero throughout, and delimited by zero (or the stream edge)
on both sides. -/
def MaxRun (forms : List ℚ) (s e : ℕ) : Prop :=
  1 ≤ s ∧ s ≤ e ∧ e ≤ forms.length ∧
    (∀ j ∈ Finset.Icc s e, val forms j ≠ 0) ∧
    val forms (s - 1) = 0 ∧ val forms (e + 1) = 0

instance (forms : List ℚ) (s e : ℕ) : Decidable (MaxRun forms s e) := by
  unfold MaxRun; infer_instance

/-- Boolean non-zero test on a `Form` value. -/
def nzb (v : ℚ) : Bool := decide (v ≠ 0)

/-- Value at global 1-based-style index `j` of a suffix of the stream
occupying indices `i .. i + rest.length - 1`; 0 outside the suffix. -/
def valS (rest : List ℚ) (i j : ℕ) : ℚ :=
  if i ≤ j ∧ j < i + rest.length then rest.getD (j - i) 0 else 0

/-- Maximal-run characterization relative to a suffix starting at global
index `i`: the run lies inside the suffix, is non-zero throughout, and
is delimited on the left by the suffix start or a zero, and on the right
by a zero or the suffix end. -/
def MaxRunS (rest : List ℚ) (i s e : ℕ) : Prop :=
  i ≤ s ∧ s ≤ e ∧ e < i + rest.length ∧
    (∀ j ∈ Finset.Icc s e, valS rest i j ≠ 0) ∧
    (s = i ∨ valS rest i (s - 1) = 0) ∧ valS rest i (e + 1) = 0

/-! ## UVNK `find_fill` -/

/-- True when some value in the window is a real reading below 1200
(`any(val < 1200 for val in window)`: NaN compares false). -/
def anyLt1200 (l : List (Option ℚ)) : Bool :=
  l.any (fun o => match o with | some v => decide (v < 1200) | none => false)

/-- Index of the first pair with maximal `Piro` among the rows of a
segment given as `(Index, Piro)` pairs; 0 when all-NaN (guarded). -/
def idxmaxPairsAux : List (ℕ × Option ℚ) → Option (ℕ × ℚ) → ℕ
  | [], none => 0
  | [], some (b, _) => b
  | (i, o) :: rest, acc =>
    match o, acc with
    | some v, none => idxmaxPairsAux rest (some (i, v))
    | some v, some (b, bv) =>
      if bv < v then idxmaxPairsAux rest (some (i, v))
      else idxmaxPairsAux rest (some (b, bv))
    | none, _ => idxmaxPairsAux rest acc

/-- `segment['Piro'].idxmax()` followed by reading the `Index` column. -/
def idxmaxPairs (l : List (ℕ × Option ℚ)) : ℕ := idxmaxPairsAux l none

/-- Scanning loop of UVNK `find_fill`: at the first consecutive pair with
an absolute jump above 35 whose 6-sample forward window dips below 1200,
return the `Index` of the current row; NaN pairs never trigger. -/
def ffLoop : List (ℕ × Option ℚ) → Option ℕ
  | [] => none
  | [_] => none
  | (i, a) :: (j, b) :: tl =>
    let trigger :=
      match a, b with
      | some x, some y =>
        decide (35 < |y - x|) && anyLt1200 ((a :: b :: tl.map Prod.snd).take 6)
      | _, _ => false
    if trigger then some i else ffLoop ((j, b) :: tl)

/-- UVNK `find_fill` over a segment given as `(Index, Piro)` pairs;
`none` when the channel is all-NaN or no qualifying drop is found. -/
def find_fill (seg : List (ℕ × Option ℚ)) : Option ℕ :=
  if seg.all (fun p => p.2.isNone) then none
  else ffLoop (seg.filter (fun p => idxmaxPairs seg ≤ p.1))

/-! ## UPPF `find_fill` -/

/-- Scanning loop of UPPF `find_fill` over `(position, value)` pairs of
the suffix starting at the argmax: NaN pairs are skipped; at the first
jump above 35 with a sub-1200 dip in the 6-sample window, the candidate
is accepted only when its own value lies in `[1350, 1700]`, otherwise the
whole search returns `none` (early exit, no second candidate). -/
def uppfLoop : List (ℕ × Option ℚ) → Option ℕ
  | [] => none
  | [_] => none
  | (i, a) :: (j, b) :: tl =>
    match a, b with
    | some x, some y =>
      if 35 < |y - x| then
        if anyLt1200 ((a :: b :: tl.map Prod.snd).take 6) then
          if 1350 ≤ x ∧ x ≤ 1700 then some i else none
        else uppfLoop ((j, b) :: tl)
      else uppfLoop ((j, b) :: tl)
    | _, _ => uppfLoop ((j, b) :: tl)

/-- UPPF `find_fill` over the pyrometer column (positions are 0-based
after `reset_index`). -/
def uppfFindFill (data : List (Option ℚ)) : Option ℕ :=
  if data.all Option.isNone then none
  else uppfLoop ((data.enum).drop (idxmaxO data))

/-! ## UPPF `calculate_holding_time_and_pour_time` -/

/-- Band bounds used by `calculate_holding_time_and_pour_time`:
`[1600, max]` above 1620, else `[max - 20, max]`. -/
def bandBounds (mv : ℚ) : ℚ × ℚ :=
  if 1620 < mv then (1600, mv) else (mv - 20, mv)

/-- Positions of the series samples lying inside the holding band
(`series[(series >= lower) & (series <= upper)].index`). -/
def bandIdxs (series : List (Option ℚ)) (mv : ℚ) : List ℕ :=
  (series.enum).filterMap
    (fun p => match p.2 with
      | some v => if (bandBounds mv).1 ≤ v ∧ v ≤ (bandBounds mv).2 then some p.1 else none
      | none => none)

/-- `calculate_holding_time_and_pour_time`: holding time is the count of
in-band samples times 5 seconds, time to pour is 5 seconds per step
between the last in-band position and the fill index; both `none` when
the fill index is `none` or no sample is in band. -/
def calculate_holding_time_and_pour_time
    (series : List (Option ℚ)) (mv : ℚ) (fi : Option ℕ) : Option ℕ × Option ℕ :=
  match fi with
  | none => (none, none)
  | some f =>
    match (bandIdxs series mv).getLast? with
    | none => (none, none)
    | some last =>
      (some ((bandIdxs series mv).length * 5), some (((f : ℤ) - last).natAbs * 5))

/-- Full-holding-time snippet of UPPF `process_files`: when a fill index
exists and is at or after the argmax of the pyrometer column, the full
holding time is `(fill - argmax) * 5`; otherwise it stays `none`. -/
def full_holding_time (pyro : List (Option ℚ)) (fi : Option ℕ) : Option ℤ :=
  match fi with
  | none => none
  | some f =>
    if idxmaxO pyro ≤ f then some (((f : ℤ) - idxmaxO pyro) * 5) else none

/-! ## `find_stable_value` (np.histogram with 100 bins) -/

/-- Bin index of a value for a 100-bin histogram over `[lo, hi]`: uniform
half-open bins, last bin closed (`np.histogram` semantics). -/
def binIdx (lo hi v : ℚ) : ℕ := min (Rat.floor ((v - lo) * 100 / (hi - lo))).toNat 99

/-- 100-bin histogram counts of the values falling inside `[lo, hi]`. -/
def hist100 (values : List ℚ) (lo hi : ℚ) : List ℕ :=
  let bs := values.filterMap
    (fun v => if lo ≤ v ∧ v ≤ hi then some (binIdx lo hi v) else none)
  (List.range 100).map (fun k => bs.count k)

/-- Outer edges used by `np.histogram(values, bins=100, range=(min, max))`:
numpy widens a degenerate range `min = max` to `[min - 1/2, min + 1/2]`. -/
def histRange (values : List ℚ) : ℚ × ℚ :=
  let mn := qmin values
  let mx := qmax values
  if mn = mx then (mn - 1/2, mn + 1/2) else (mn, mx)

/-- `find_stable_value`: 0 on an empty array, else the center of the most
populous histogram bin (first bin on ties, `np.argmax`). -/
def find_stable_value (values : List ℚ) : ℚ :=
  if values = [] then 0
  else
    ((histRange values).1 +
        (argmaxIdx (hist100 values (histRange values).1 (histRange values).2) : ℚ) *
          (((histRange values).2 - (histRange values).1) / 100) +
      ((histRange values).1 +
        ((argmaxIdx (hist100 values (histRange values).1 (histRange values).2) : ℚ) + 1) *
          (((histRange values).2 - (histRange values).1) / 100))) / 2

/-! ## `is_valid_growth` -/

/-- Lower bound of the main growth band. -/
def mainLo : ℚ := 0.045

/-- Upper bound of the main growth band. -/
def mainHi : ℚ := 0.2

/-- Sub-band width `0.2 - 0.045` used to tile the observed range. -/
def rangeWidth : ℚ := mainHi - mainLo

/-- Number of iterations of the upward while-loop of `is_valid_growth`
(`while curr <= max_val + w`, stepping by `w`). -/
def upFuel (maxv curr : ℚ) : ℕ :=
  (Rat.floor ((maxv + rangeWidth - curr) / rangeWidth) + 1).toNat

/-- Structural unfolding of the upward while-loop, running it a given
number of steps. -/
def upRangesAux : ℕ → ℚ → ℚ → List (ℚ × ℚ)
  | 0, _, _ => []
  | n + 1, maxv, curr =>
    if curr ≤ maxv + rangeWidth then
      (curr, curr + rangeWidth) :: upRangesAux n maxv (curr + rangeWidth)
    else []

/-- Upward while-loop of `is_valid_growth`: starting at `curr`, append
`(curr, curr + w)` while `curr <= max_val + w`; see `upRanges_eq` for the
loop equation. -/
def upRanges (maxv curr : ℚ) : List (ℚ × ℚ) := upRangesAux (upFuel maxv curr) maxv curr

/-- Number of iterations of the downward while-loop of `is_valid_growth`
(`while curr >= min_val - w`, stepping by `-w`). -/
def downFuel (minv curr : ℚ) : ℕ :=
  (Rat.floor ((curr - (minv - rangeWidth)) / rangeWidth) + 1).toNat

/-- Structural unfolding of the downward while-loop. -/
def downRangesAux : ℕ → ℚ → ℚ → List (ℚ × ℚ)
  | 0, _, _ => []
  | n + 1, minv, curr =>
    if minv - rangeWidth ≤ curr then
      (curr - rangeWidth, curr) :: downRangesAux n minv (curr - rangeWidth)
    else []

/-- Downward while-loop of `is_valid_growth`: starting at `curr`, append
`(curr - w, curr)` while `curr >= min_val - w`; see `downRanges_eq` for
the loop equation. -/
def downRanges (minv curr : ℚ) : List (ℚ × ℚ) :=
  downRangesAux (downFuel minv curr) minv curr

/-- Lexicographic order on pairs of rationals, the order Python `sorted`
uses on 2-tuples. -/
def lexLe (a b : ℚ × ℚ) : Prop := a.1 < b.1 ∨ (a.1 = b.1 ∧ a.2 ≤ b.2)

instance : DecidableRel lexLe := fun a b => by unfold lexLe; infer_instance

/-- Python `sorted(set(l))` on pairs: distinct elements in increasing
lexicographic order. -/
def sortedSet (l : List (ℚ × ℚ)) : List (ℚ × ℚ) := l.dedup.insertionSort lexLe

/-- The tiled sub-bands of `is_valid_growth` for a nonempty delta list. -/
def subrangesOf (speeds : List ℚ) : List (ℚ × ℚ) :=
  sortedSet (upRanges (qmax speeds) mainLo ++ downRanges (qmin speeds) mainLo)

/-- First sub-band (in list order) containing a delta, mirroring the
counting loop with `break`. -/
def firstBand (srs : List (ℚ × ℚ)) (s : ℚ) : Option (ℚ × ℚ) :=
  srs.find? (fun r => decide (r.1 ≤ s ∧ s < r.2))

/-- Number of deltas whose first containing sub-band is `sr`. -/
def bandCount (speeds : List ℚ) (srs : List (ℚ × ℚ)) (sr : ℚ × ℚ) : ℕ :=
  speeds.countP (fun s => firstBand srs s == some sr)

/-- Accumulator step of Python `max(l, key=cnt)`: a strictly larger key
replaces the best element, so the first maximum wins. -/
def argStep {α : Type} (cnt : α → ℕ) : Option α → α → Option α
  | none, x => some x
  | some b, x => if cnt b < cnt x then some x else some b

/-- Python `max(l, key=cnt)`: the first element attaining the maximal
key value. -/
def firstArgmaxKey {α : Type} (cnt : α → ℕ) (l : List α) : Option α :=
  l.foldl (argStep cnt) none

/-- `is_valid_growth`: tile the observed delta range with sub-bands of
width `0.155` anchored at `[0.045, 0.2)`, count deltas per sub-band, and
require the most populated sub-band (first on ties) to be the main one;
an empty delta list is invalid. -/
def is_valid_growth (speeds : List ℚ) : Bool :=
  if speeds = [] then false
  else
    match firstArgmaxKey (bandCount speeds (subrangesOf speeds)) (subrangesOf speeds) with
    | none => false
    | some m => m == (mainLo, mainHi)

/-! ## `speed_form` -/

/-- Median of a 5-element window (3rd smallest value). -/
def median5 (l : List ℚ) : ℚ := (l.insertionSort (· ≤ ·)).getD 2 0

/-- `scipy.signal.medfilt` with kernel 5: zero-padded sliding median. -/
def medfilt5 (l : List ℚ) : List ℚ :=
  let padded := 0 :: 0 :: (l ++ [0, 0])
  (List.range l.length).map (fun i => median5 ((padded.drop i).take 5))

/-- Blank the first two and last two filtered values (set to NaN) when
the filtered array has at least two entries. -/
def blanked (l : List ℚ) : List (Option ℚ) :=
  if 2 ≤ l.length then
    (List.range l.length).map (fun i =>
      if i < 2 ∨ l.length - 2 ≤ i then none else some (l.getD i 0))
  else l.map some

/-- Raw per-sample speeds: consecutive `Form` differences times 12. -/
def rawSpeeds (seg : List ℚ) : List ℚ := (diffs seg).map (fun d => d * 12)

/-- Median-filtered speeds with blanked edges. -/
def filteredSpeeds (seg : List ℚ) : List (Option ℚ) := blanked (medfilt5 (rawSpeeds seg))

/-- Positive non-missing filtered speeds. -/
def posFiltered (seg : List ℚ) : List ℚ :=
  (filteredSpeeds seg).filterMap (fun o =>
    match o with
    | some v => if 0 < v then some v else none
    | none => none)

/-- Python `round`: round half to even. -/
def pyRound (x : ℚ) : ℤ :=
  if x - Rat.floor x = 1/2 then
    (if 2 ∣ Rat.floor x then Rat.floor x else Rat.floor x + 1)
  else Rat.floor (x + 1/2)

/-- Bin a speed by rounding to the nearest multiple of the tolerance. -/
def binSpeed (v : ℚ) : ℚ := (pyRound (v / 0.1) : ℚ) * 0.1

/-- Match fraction of a modal bin: among the non-blanked positions whose
binned filtered speed equals the mode, the fraction whose raw speed is
within 0.2 of the filtered speed; `none` for a missing mode or an empty
group. -/
def matchFrac (seg : List ℚ) (target : Option ℚ) : Option ℚ :=
  match target with
  | none => none
  | some t =>
    let raw := rawSpeeds seg
    let idxs := ((filteredSpeeds seg).enum).filterMap (fun p =>
      match p.2 with
      | some v => if binSpeed v = t then some (p.1, v) else none
      | none => none)
    match idxs with
    | [] => none
    | _ =>
      let hits := idxs.countP (fun p => decide (|raw.getD p.1 0 - p.2| < 0.2))
      some ((hits : ℚ) / idxs.length)

/-- Per-segment body of `speed_form` (default tolerance 0.1): the two
modal speed bins and the `Form_OK` / `Form_Error` status. -/
def speedFormSeg (seg : List ℚ) : Option ℚ × Option ℚ × String :=
  if seg.length < 2 then (none, none, "Form_OK")
  else if rawSpeeds seg = [] then (none, none, "Form_OK")
  else if posFiltered seg = [] then (none, none, "Form_OK")
  else
    let grouped := (posFiltered seg).map binSpeed
    let ks := grouped.dedup
    let cnt := fun v => grouped.count v
    let sf1 := firstArgmaxKey cnt ks
    let sf2 := match sf1 with
      | some a => firstArgmaxKey cnt (ks.erase a)
      | none => none
    let r1 := matchFrac seg sf1
    let r2 := matchFrac seg sf2
    let err :=
      (match r1 with | some r => decide (r < 0.8) | none => false) ||
      (match r2 with | some r => decide (r < 0.8) | none => false)
    (sf1, sf2, if err then "Form_Error" else "Form_OK")

/-- `speed_form` over a list of segments (the source accumulates three
parallel lists; here one list of triples). -/
def speed_form (t : List (List ℚ)) : List (Option ℚ × Option ℚ × String) :=
  t.map speedFormSeg

/-! ## Leak-rate estimator -/

/-- Input row for `get_last_valid_leakage`: the raw pressure reading
(`none` for an unparseable value) and the `Form` delimiter. -/
structure LRow where
  bp2 : Option ℚ
  form : ℚ
deriving DecidableEq

/-- Scale the pressure by 1000 and keep only rows with scaled pressure at
most 60 and `Form` exactly 0. -/
def leakTemp (df : List LRow) : List ℚ :=
  df.filterMap (fun r =>
    match r.bp2 with
    | some v => if v * 1000 ≤ 60 ∧ r.form = 0 then some (v * 1000) else none
    | none => none)

/-- Group a list of row positions into maximal runs of consecutive
positions (loop body, carrying the run start and previous position). -/
def gcAux : List ℕ → ℕ → ℕ → List (ℕ × ℕ)
  | [], start, prev => [(start, prev)]
  | x :: rest, start, prev =>
    if x ≠ prev + 1 then (start, prev) :: gcAux rest x x
    else gcAux rest start x

/-- Maximal consecutive runs of a position list ("stable intervals"). -/
def intervalsOf : List ℕ → List (ℕ × ℕ)
  | [] => []
  | x :: rest => gcAux rest x x

/-- Positions whose pressure lies within 2 of the stable value. -/
def stableIdxs (temp : List ℚ) (sv : ℚ) : List ℕ :=
  (temp.enum).filterMap (fun p =>
    if sv - 2 ≤ p.2 ∧ p.2 ≤ sv + 2 then some p.1 else none)

/-- `process_leakage_segment_math`: anchor at the first-half minimum and
the overall maximum, skip 12 stabilization samples (unless that
overshoots the maximum), measure the pressure delta over up to 120
samples scaled by the volume coefficient 820, and reject non-positive
spans; returns `(offset, rate)`. -/
def process_leakage_segment_math (seg : List ℚ) : Option (ℤ × ℚ) :=
  if seg.length < 5 then none
  else
    let startIdx := argminQIdx (seg.take (seg.length / 2))
    let endIdx := argmaxQIdx seg
    let calcStart := if endIdx ≤ startIdx + 12 then startIdx else startIdx + 12
    let bp2Start := seg.getD calcStart 0
    let p := if calcStart + 120 ≤ endIdx then ((calcStart + 120 : ℕ), (120 : ℤ))
             else (endIdx, (endIdx : ℤ) - calcStart)
    if p.2 ≤ 0 then none
    else some (p.2, (seg.getD p.1 0 - bp2Start) * 820 / (p.2 : ℚ))

/-- Candidate runs strictly between consecutive stable intervals that are
nonempty, capped at 60, and pass the growth test, widened by 5 samples on
each side. -/
def betweenSegs (temp : List ℚ) (ivs : List (ℕ × ℕ)) : List (List ℚ) :=
  (ivs.zip ivs.tail).filterMap (fun q =>
    if pySlice temp (q.1.2 + 1) q.2.1 = [] ∨ 60 < qmax (pySlice temp (q.1.2 + 1) q.2.1) then
      none
    else if is_valid_growth (diffs (pySlice temp (q.1.2 + 1) q.2.1)) then
      some (pySlice temp (q.1.2 - 5) (min temp.length (q.2.1 + 5)))
    else none)

/-- Lead-in candidate run before the first stable interval. -/
def leadSegs (temp : List ℚ) (ivs : List (ℕ × ℕ)) : List (List ℚ) :=
  match ivs.head? with
  | some iv0 =>
    if pySlice temp 0 iv0.1 ≠ [] ∧ is_valid_growth (diffs (pySlice temp 0 iv0.1)) = true then
      [pySlice temp 0 (min temp.length (iv0.1 + 5))]
    else []
  | none => []

/-- Trail-out candidate run after the last stable interval. -/
def trailSegs (temp : List ℚ) (ivs : List (ℕ × ℕ)) : List (List ℚ) :=
  match ivs.getLast? with
  | some ivl =>
    if temp.drop (ivl.2 + 1) ≠ [] ∧ is_valid_growth (diffs (temp.drop (ivl.2 + 1))) = true then
      [pySlice temp (ivl.2 - 5) temp.length]
    else []
  | none => []

/-- The stable intervals computed by `get_last_valid_leakage` on the
filtered pressure stream. -/
def candidateIvs (df : List LRow) : List (ℕ × ℕ) :=
  intervalsOf (stableIdxs (leakTemp df) (find_stable_value (leakTemp df)))

/-- The candidate segments of `get_last_valid_leakage`, in the order the
source appends them: between-interval candidates first, then the lead-in
candidate, then the trail-out candidate. -/
def candidateSegs (df : List LRow) : List (List ℚ) :=
  if leakTemp df = [] then []
  else
    betweenSegs (leakTemp df) (candidateIvs df) ++ leadSegs (leakTemp df) (candidateIvs df) ++
      trailSegs (leakTemp df) (candidateIvs df)

/-- Accumulator step of the final loop: a processed result with offset at
least 100 overwrites the previous valid leakage. -/
def leakStep (acc : Option (ℤ × ℚ)) (seg : List ℚ) : Option (ℤ × ℚ) :=
  match process_leakage_segment_math seg with
  | some r => if 100 ≤ r.1 then some r else acc
  | none => acc

/-- `get_last_valid_leakage`: fold the qualifying candidate results in
the source's processing order, keeping the last. -/
def get_last_valid_leakage (df : List LRow) : Option (ℤ × ℚ) :=
  if leakTemp df = [] then none
  else (candidateSegs df).foldl leakStep none

/-- Modelled from the spec: the candidate runs ordered by their position
in the stream (lead-in first, then between-interval candidates, then the
trail-out candidate), used to compare the source's processing order
against stream order. -/
def candidateSegsStream (df : List LRow) : List (List ℚ) :=
  if leakTemp df = [] then []
  else
    leadSegs (leakTemp df) (candidateIvs df) ++ betweenSegs (leakTemp df) (candidateIvs df) ++
      trailSegs (leakTemp df) (candidateIvs df)

/-- Modelled from the spec: the result belonging to the last qualifying
candidate run in stream order. -/
def getLastValidLeakageStream (df : List LRow) : Option (ℤ × ℚ) :=
  if leakTemp df = [] then none
  else (candidateSegsStream df).foldl leakStep none

/-- The result of the last candidate (in the given list order) whose
processed result qualifies (`offset >= 100`). -/
def lastQualifying (l : List (List ℚ)) : Option (ℤ × ℚ) :=
  ((l.filterMap process_leakage_segment_math).filter
    (fun r => decide (100 ≤ r.1))).getLast?

/-! ## UVNK report builder (`process_dataframe_segments`) -/

/-- One input row of the UVNK table; every channel except the delimiter
may carry NaN. -/
structure RowU where
  piro : Option ℚ
  bp2 : Option ℚ
  form : ℚ
  dl : Option ℚ
  tl : Option ℚ
  dr : Option ℚ
  tr : Option ℚ
  tp : Option ℚ
deriving DecidableEq

/-- Placeholder row for out-of-range lookups (never reached on the
guarded paths). -/
def defaultRow : RowU := ⟨none, none, 0, none, none, none, none, none⟩

/-- The UVNK input table: rows plus column-presence flags for the
required column set and the optional `TP` column. -/
structure TableU where
  rows : List RowU
  hasRequired : Bool
  hasTP : Bool
deriving DecidableEq

/-- Rows paired with their 1-based `Index` as assigned by `add_Index`. -/
def dfI (t : TableU) : List (ℕ × RowU) := t.rows.enum.map (fun p => (p.1 + 1, p.2))

/-- `df[(df['Index'] >= start) & (df['Index'] <= end)]`. -/
def sliceU (t : TableU) (s e : ℕ) : List (ℕ × RowU) :=
  (dfI t).filter (fun p => decide (s ≤ p.1 ∧ p.1 ≤ e))

/-- The `(Index, Piro)` view of a slice, fed to `find_fill`. -/
def ffInput (sl : List (ℕ × RowU)) : List (ℕ × Option ℚ) :=
  sl.map (fun p => (p.1, p.2.piro))

/-- Float inequality on possibly-NaN values: NaN differs from
everything, including NaN. -/
def piroNe (a b : Option ℚ) : Bool :=
  match a, b with
  | some x, some y => x != y
  | _, _ => true

/-- Scan for the first row whose `Piro` differs from its predecessor,
returning that row's `Index`. -/
def fcAux : ℕ × RowU → List (ℕ × RowU) → Option ℕ
  | _, [] => none
  | p, r :: tl => if piroNe r.2.piro p.2.piro then some r.1 else fcAux r tl

/-- Index of the first `Piro` change inside a segment. -/
def firstChange : List (ℕ × RowU) → Option ℕ
  | [] => none
  | r :: rest => fcAux r rest

/-- `heating_to_fill`: pairs the first `Piro` change with the fill index,
kept only when both exist. -/
def heating_to_fill (t : TableU) (segs : List (ℕ × ℕ)) : List (ℕ × ℕ) :=
  segs.filterMap (fun q =>
    let sl := sliceU t q.1 q.2
    match firstChange sl, find_fill (ffInput sl) with
    | some a, some b => some (a, b)
    | _, _ => none)

/-- `start_to_fill`: pairs the segment start with the fill index. -/
def start_to_fill (t : TableU) (segs : List (ℕ × ℕ)) : List (ℕ × ℕ) :=
  segs.filterMap (fun q =>
    match find_fill (ffInput (sliceU t q.1 q.2)) with
    | some b => some (q.1, b)
    | none => none)

/-- `find_max_bp2` over a list of segments. -/
def find_max_bp2 (t : TableU) (segs : List (ℕ × ℕ)) : List (Option ℚ) :=
  segs.map (fun q => maxO ((sliceU t q.1 q.2).map (fun p => p.2.bp2)))

/-- `find_min_bp2` over a list of segments. -/
def find_min_bp2 (t : TableU) (segs : List (ℕ × ℕ)) : List (Option ℚ) :=
  segs.map (fun q => minO ((sliceU t q.1 q.2).map (fun p => p.2.bp2)))

/-- Strict comparison against 1500 on a possibly-NaN channel. -/
def gt1500 (o : Option ℚ) : Bool :=
  match o with
  | some v => decide (1500 < v)
  | none => false

/-- Row condition of `holding_time`: one D and one T reading above 1500. -/
def holdCond (r : RowU) : Bool :=
  (gt1500 r.dl && gt1500 r.tl) || (gt1500 r.dl && gt1500 r.tr) ||
  (gt1500 r.dr && gt1500 r.tl) || (gt1500 r.dr && gt1500 r.tr)

/-- `holding_time`: 5/60 minutes per qualifying row of each segment. -/
def holding_time (t : TableU) (segs : List (ℕ × ℕ)) : List ℚ :=
  segs.map (fun q => ((sliceU t q.1 q.2).countP (fun p => holdCond p.2) : ℚ) * (5 / 60))

/-- `heating_time`: segment width in samples times 5/60 minutes. -/
def heating_time (segs : List (ℕ × ℕ)) : List ℚ :=
  segs.map (fun q => (((q.2 : ℤ) - q.1 + 1 : ℤ) : ℚ) * 5 / 60)

/-- `Form` value at a 1-based row index; 0 out of range (guarded). -/
def formAt (t : TableU) (idx : ℕ) : ℚ := (t.rows.map (fun r => r.form)).getD (idx - 1) 0

/-- Strictly decreasing 5-sample `Form` window starting at index `idx`. -/
def decreasing5 (t : TableU) (idx : ℕ) : Bool :=
  (List.range 4).all (fun j => decide (formAt t (idx + j + 1) < formAt t (idx + j)))

/-- Scanning loop of `returning_ppf_temperature`: find the first row
whose `Form` decreases from its predecessor and whose 5-sample window
stays inside the segment, exists in the table, and is strictly
decreasing. -/
def returnScanAux (t : TableU) (e : ℕ) : ℚ → List (ℕ × RowU) → Option ℕ
  | _, [] => none
  | prevForm, r :: tl =>
    if r.2.form < prevForm then
      if e < r.1 + 4 then returnScanAux t e r.2.form tl
      else if t.rows.length < r.1 + 4 then returnScanAux t e r.2.form tl
      else if decreasing5 t r.1 then some r.1
      else returnScanAux t e r.2.form tl
    else returnScanAux t e r.2.form tl

/-- Per-segment body of `returning_ppf_temperature`: the four companion
readings at the detected retraction index, or four nulls. -/
def returningSeg (t : TableU) (s e : ℕ) : Option ℚ × Option ℚ × Option ℚ × Option ℚ :=
  match sliceU t s e with
  | [] => (none, none, none, none)
  | r :: tl =>
    match returnScanAux t e r.2.form tl with
    | some ri =>
      let row := t.rows.getD (ri - 1) defaultRow
      (row.dl, row.dr, row.tl, row.tr)
    | none => (none, none, none, none)

/-- `returning_ppf_temperature` over a list of segments. -/
def returning_ppf_temperature (t : TableU) (segs : List (ℕ × ℕ)) :
    List (Option ℚ × Option ℚ × Option ℚ × Option ℚ) :=
  segs.map (fun q => returningSeg t q.1 q.2)

/-- Per-segment body of `holding_time_max_piro`: samples near the
segment peak times 5 seconds. -/
def holdingMaxPiroSeg (t : TableU) (s e : ℕ) : ℕ :=
  let piros := (sliceU t s e).map (fun p => p.2.piro)
  match maxO piros with
  | some m =>
    if 1600 < m then
      (piros.countP (fun o => match o with | some v => decide (1600 ≤ v) | none => false)) * 5
    else
      (piros.countP (fun o =>
        match o with | some v => decide (m - 20 ≤ v ∧ v ≤ m) | none => false)) * 5
  | none => 0

/-- `TP <= 1700` filter condition (NaN excluded). -/
def tpLe1700 (o : Option ℚ) : Bool :=
  match o with
  | some v => decide (v ≤ 1700)
  | none => false

/-- Leakage information attached to every emitted record (keys
`offset`, `result`, `source`, each possibly absent). -/
structure LeakInfo where
  offset : Option ℤ
  result : Option ℚ
  source : Option String
deriving DecidableEq

/-- One emitted metric record: the fill row, its `Index`, and the derived
per-segment metrics. -/
structure RecordU where
  idx : ℕ
  row : RowU
  maxBP2 : Option ℚ
  minBP2 : Option ℚ
  vyderzhka : ℚ
  heating : ℚ
  ret : Option ℚ × Option ℚ × Option ℚ × Option ℚ
  holdMaxPiro : ℕ
  maxTemp : Option ℚ
  termoMax : Option ℚ
  sf1 : Option ℚ
  sf2 : Option ℚ
  formStatus : String
  maxForm : ℚ
  leakOffset : Option ℤ
  leak : Option ℚ
  leakSource : Option String
deriving DecidableEq

/-- Record assembled for one segment once the fill, heating and holding
guards have all passed, with `fv` the detected fill `Index`. -/
def mkRecord (t : TableU) (leak : Option LeakInfo) (seg : ℕ × ℕ) (fv : ℕ) : RecordU :=
  let sl := sliceU t seg.1 seg.2
  let hs := heating_to_fill t [seg]
  let hh := start_to_fill t [seg]
  let sfr := speedFormSeg (sl.map (fun p => p.2.form))
  { idx := fv
    row := t.rows.getD (fv - 1) defaultRow
    maxBP2 := (find_max_bp2 t hs).headD none
    minBP2 := (find_min_bp2 t hs).headD none
    vyderzhka := (holding_time t hh).headD 0
    heating := (heating_time hs).headD 0
    ret := returningSeg t seg.1 seg.2
    holdMaxPiro := holdingMaxPiroSeg t seg.1 seg.2
    maxTemp := maxO (sl.map (fun p => p.2.piro))
    termoMax :=
      if t.hasTP then
        maxO (((sl.map (fun p => p.2.tp)).filter tpLe1700))
      else none
    sf1 := sfr.1
    sf2 := sfr.2.1
    formStatus := sfr.2.2
    maxForm := qmax (sl.map (fun p => p.2.form))
    leakOffset := match leak with | some li => li.offset | none => none
    leak := match leak with | some li => li.result | none => none
    leakSource := match leak with | some li => li.source | none => none }

/-- Loop body of `process_dataframe_segments` for one segment: `none`
(the source's `continue`) when no fill is detected or the heating or
holding segment is missing; otherwise the assembled record. -/
def perSegment (t : TableU) (leak : Option LeakInfo) (seg : ℕ × ℕ) : Option RecordU :=
  match find_fill (ffInput (sliceU t seg.1 seg.2)) with
  | none => none
  | some fv =>
    if heating_to_fill t [seg] = [] then none
    else if start_to_fill t [seg] = [] then none
    else some (mkRecord t leak seg fv)

/-- `process_dataframe_segments`: empty when a required column is
missing or no segment exists; otherwise one record per segment that
passes the fill, heating and holding guards. -/
def process_dataframe_segments (t : TableU) (leak : Option LeakInfo) : List RecordU :=
  if !t.hasRequired then []
  else if find_valid_segments_by_form (t.rows.map (fun r => r.form)) = [] then []
  else (find_valid_segments_by_form (t.rows.map (fun r => r.form))).filterMap
    (perSegment t leak)

/-! ## Concrete example streams -/

/-- In-band check used to state the holding-time claims: a sample
qualifies when it is a real reading inside `[lo, hi]`. -/
def inBandP (lo hi : ℚ) (o : Option ℚ) : Bool :=
  match o with
  | some v => decide (lo ≤ v ∧ v ≤ hi)
  | none => false

/-- Scaled pressure values of a leak ramp rising from 23 in steps of
0.1 over 113 samples. -/
def leadVals : List ℚ := (List.range 113).map (fun k => 23 + (k : ℚ) / 10)

/-- Twenty samples at the stable pressure level 20. -/
def stableVals : List ℚ := List.replicate 20 (20 : ℚ)

/-- Scaled pressure values of a steeper leak ramp rising from 23 in
steps of 0.15 over 113 samples. -/
def betweenVals : List ℚ := (List.range 113).map (fun k => 23 + 3 * (k : ℚ) / 20)

/-- A scaled pressure stream holding two qualifying leak ramps: one
before the first stable interval and one between the two stable
intervals. -/
def exScaled : List ℚ := leadVals ++ stableVals ++ betweenVals ++ stableVals

/-- The corresponding raw input rows (pressure divided by the 1000
scaling, form closed throughout). -/
def exDf : List LRow := exScaled.map (fun v => ⟨some (v / 1000), 0⟩)

/-- A nine-row example table: a first `Form` run (rows 1-6) with a
detectable fill drop after the pyrometer peak, one delimiter row, and a
second flat run (rows 8-9) with no fill event. -/
def exT : TableU :=
  ⟨[⟨some 1600, none, 1, none, none, none, none, none⟩,
    ⟨some 1650, none, 1, none, none, none, none, none⟩,
    ⟨some 1600, none, 1, none, none, none, none, none⟩,
    ⟨some 1100, none, 1, none, none, none, none, none⟩,
    ⟨some 1050, none, 1, none, none, none, none, none⟩,
    ⟨some 1050, none, 1, none, none, none, none, none⟩,
    ⟨some 1500, none, 0, none, none, none, none, none⟩,
    ⟨some 1500, none, 1, none, none, none, none, none⟩,
    ⟨some 1500, none, 1, none, none, none, none, none⟩], true, false⟩

/-- The single record the example table produces (from the fill event
of the first run). -/
def exRec : RecordU :=
  (process_dataframe_segments exT none).headD
    ⟨0, defaultRow, none, none, 0, 0, (none, none, none, none), 0, none, none,
      none, none, "", 0, none, none, none⟩

/-! ## Helper lemmas -/

set_option maxRecDepth 100000

theorem uppfLoop_sound (l : List (ℕ × Option ℚ)) (i : ℕ) (h : uppfLoop l = some i) :
    ∃ x : ℚ, (i, some x) ∈ l ∧ 1350 ≤ x ∧ x ≤ 1700 := by
  induction l with
  | nil => simp [uppfLoop] at h
  | cons hd tl ih =>
    match tl, hd with
    | [], _ => simp [uppfLoop] at h
    | hd2 :: tl2, (i1, a) =>
      obtain ⟨j, b⟩ := hd2
      match a, b with
      | some x, some y =>
        rw [uppfLoop] at h
        by_cases h1 : 35 < |y - x|
        · rw [if_pos h1] at h
          by_cases h2 : anyLt1200 ((some x :: some y :: tl2.map Prod.snd).take 6) = true
          · rw [if_pos h2] at h
            by_cases h3 : 1350 ≤ x ∧ x ≤ 1700
            · rw [if_pos h3] at h
              exact ⟨x, by simp [← Option.some_inj.mp h], h3.1, h3.2⟩
            · rw [if_neg h3] at h
              exact absurd h (by simp)
          · rw [if_neg h2] at h
            obtain ⟨v, hv, hr⟩ := ih h
            exact ⟨v, List.mem_cons_of_mem _ hv, hr⟩
        · rw [if_neg h1] at h
          obtain ⟨v, hv, hr⟩ := ih h
          exact ⟨v, List.mem_cons_of_mem _ hv, hr⟩
      | some x, none =>
        obtain ⟨v, hv, hr⟩ := ih h
        exact ⟨v, List.mem_cons_of_mem _ hv, hr⟩
      | none, b =>
        obtain ⟨v, hv, hr⟩ := ih h
        exact ⟨v, List.mem_cons_of_mem _ hv, hr⟩

theorem length_filterMap_band (l : List (Option ℚ)) (lo hi : ℚ) : ∀ n : ℕ,
    ((List.enumFrom n l).filterMap
      (fun p => match p.2 with
        | some v => if lo ≤ v ∧ v ≤ hi then some p.1 else none
        | none => none)).length = l.countP (inBandP lo hi) := by
  induction l with
  | nil => intro n; rfl
  | cons o tl ih =>
    intro n
    match o with
    | some v =>
      by_cases hv : lo ≤ v ∧ v ≤ hi
      · simp only [List.enumFrom, List.filterMap, List.countP_cons, inBandP, if_pos hv,
          List.length_cons, decide_eq_true_eq, hv, and_self, if_true]
        rw [ih (n + 1)]
      · simp only [List.enumFrom, List.filterMap, List.countP_cons, inBandP, if_neg hv,
          decide_eq_true_eq]
        rw [ih (n + 1)]
        simp [hv]
    | none =>
      simp only [List.enumFrom, List.filterMap, List.countP_cons, inBandP]
      rw [ih (n + 1)]
      simp

theorem argmaxAux_lt (l : List ℕ) : ∀ (i best bv : ℕ), best < i →
    argmaxAux l i best bv < i + l.length := by
  induction l with
  | nil =>
    intro i best bv h
    rw [argmaxAux, List.length_nil]
    omega
  | cons c rest ih =>
    intro i best bv h
    rw [argmaxAux, List.length_cons]
    by_cases hc : bv < c
    · rw [if_pos hc]
      have h2 := ih (i + 1) i c (Nat.lt_succ_self i)
      omega
    · rw [if_neg hc]
      have h2 := ih (i + 1) best bv (h.trans (Nat.lt_succ_self i))
      omega

theorem argmaxIdx_lt (l : List ℕ) (h : l ≠ []) : argmaxIdx l < l.length := by
  match l with
  | [] => exact absurd rfl h
  | c :: rest =>
    rw [argmaxIdx, List.length_cons]
    have h2 := argmaxAux_lt rest 1 0 c Nat.zero_lt_one
    omega

/-! ## Claim C1 -/

/-- C1: the claim states that every `find_fill` variant accepts a
candidate only when its own value lies in `[1350, 1700]`; the UVNK
variant performs no such range check and here returns Index 1 whose
pyrometer value is 1800, outside the range. -/
theorem C1_counterexample :
    find_fill [(1, some 1800), (2, some 1100)] = some 1 ∧
    List.lookup 1 [(1, some (1800 : ℚ)), (2, some 1100)] = some (some 1800) ∧
    ¬ (1350 ≤ (1800 : ℚ) ∧ (1800 : ℚ) ≤ 1700) := by
  refine ⟨by with_unfolding_all decide, by with_unfolding_all decide, ?_⟩
  intro h
  have := h.2
  norm_num at this

/-- C1 (amended): only the UPPF variant of fill detection validates the
candidate against `[1350, 1700]`: whenever UPPF `find_fill` returns a
position, the pyrometer value there is a real reading between 1350 and
1700 inclusive; the UVNK variant returns its candidate unchecked. -/
theorem C1_theorem (data : List (Option ℚ)) (i : ℕ) (h : uppfFindFill data = some i) :
    ∃ v : ℚ, data.get? i = some (some v) ∧ 1350 ≤ v ∧ v ≤ 1700 := by
  unfold uppfFindFill at h
  by_cases hall : data.all Option.isNone
  · rw [if_pos hall] at h; exact absurd h (by simp)
  · rw [if_neg hall] at h
    obtain ⟨x, hx, hr⟩ := uppfLoop_sound _ i h
    have hmem : (i, some x) ∈ data.enum := List.mem_of_mem_drop hx
    have := List.mk_mem_enum_iff_getElem?.mp hmem
    exact ⟨x, by simpa using this, hr⟩

/-- C1 (witness): a UPPF stream where the detected candidate value 1600
passes the range check. -/
theorem C1_witness :
    ∃ v : ℚ, [some 1600, some 1100].get? 0 = some (some v) ∧ 1350 ≤ v ∧ v ≤ 1700 :=
  C1_theorem [some 1600, some 1100] 0 (by with_unfolding_all decide)

/-! ## Claim C4 -/

/-- C4: the claim states the holding band is always exactly 50 degrees
wide when the reference maximum exceeds 1620; at maximum 1700 the band
is `[1600, 1700]`, 100 degrees wide. -/
theorem C4_counterexample :
    (1620 : ℚ) < 1700 ∧ (bandBounds 1700).2 - (bandBounds 1700).1 ≠ 50 := by
  constructor
  · norm_num
  · rw [bandBounds, if_pos (by norm_num : (1620 : ℚ) < 1700)]
    norm_num

/-- C4 (amended): when the reference maximum exceeds 1620 the band is
`[1600, max]`, hence `max - 1600` degrees wide (more than 20 but not a
fixed 50); otherwise the band is exactly 20 degrees wide and ends at the
maximum. -/
theorem C4_theorem (mv : ℚ) :
    (1620 < mv →
      bandBounds mv = (1600, mv) ∧ (bandBounds mv).2 - (bandBounds mv).1 = mv - 1600 ∧
        20 < (bandBounds mv).2 - (bandBounds mv).1) ∧
    (mv ≤ 1620 →
      (bandBounds mv).2 - (bandBounds mv).1 = 20 ∧ (bandBounds mv).2 = mv) := by
  unfold bandBounds
  by_cases h : 1620 < mv
  · rw [if_pos h]
    exact ⟨fun _ => ⟨rfl, by ring, by simp only; linarith⟩,
      fun h2 => absurd h (not_lt.mpr h2)⟩
  · rw [if_neg h]
    exact ⟨fun h1 => absurd h1 h, fun _ => ⟨by ring, rfl⟩⟩

/-- C4 (witness): the amended band rule evaluated at maxima 1650 and
1600. -/
theorem C4_witness :
    (bandBounds 1650 = (1600, 1650) ∧
      (bandBounds 1650).2 - (bandBounds 1650).1 = 1650 - 1600 ∧
      20 < (bandBounds 1650).2 - (bandBounds 1650).1) ∧
    ((bandBounds 1600).2 - (bandBounds 1600).1 = 20 ∧ (bandBounds 1600).2 = 1600) :=
  ⟨(C4_theorem 1650).1 (by norm_num), (C4_theorem 1600).2 (by norm_num)⟩

/-! ## Claim C5 -/

/-- C5: `calculate_holding_time_and_pour_time` selects the band
`[1600, max]` above 1620 and `[max - 20, max]` otherwise; with a fill
index present, it returns both outputs null when no sample is in band
and otherwise a holding time of 5 seconds per in-band sample. -/
theorem C5_theorem (series : List (Option ℚ)) (mv : ℚ) (f : ℕ) :
    bandBounds mv = (if 1620 < mv then ((1600 : ℚ), mv) else (mv - 20, mv)) ∧
    (series.countP (inBandP (bandBounds mv).1 (bandBounds mv).2) = 0 →
      calculate_holding_time_and_pour_time series mv (some f) = (none, none)) ∧
    (∀ n, series.countP (inBandP (bandBounds mv).1 (bandBounds mv).2) = n → 0 < n →
      (calculate_holding_time_and_pour_time series mv (some f)).1 = some (n * 5)) := by
  have hcount : (bandIdxs series mv).length =
      series.countP (inBandP (bandBounds mv).1 (bandBounds mv).2) := by
    unfold bandIdxs
    rw [List.enum]
    exact length_filterMap_band series (bandBounds mv).1 (bandBounds mv).2 0
  refine ⟨?_, ?_, ?_⟩
  · unfold bandBounds
    by_cases h : 1620 < mv
    · rw [if_pos h]
    · rw [if_neg h]
  · intro h0
    have hnil : bandIdxs series mv = [] := by
      rw [← List.length_eq_zero, hcount]
      exact h0
    unfold calculate_holding_time_and_pour_time
    rw [hnil]
    rfl
  · intro n hn hpos
    have hlen : (bandIdxs series mv).length = n := by rw [hcount]; exact hn
    unfold calculate_holding_time_and_pour_time
    match hc : bandIdxs series mv with
    | [] =>
      rw [hc, List.length_nil] at hlen
      omega
    | a :: tl =>
      rw [hc] at hlen
      have hlast : (a :: tl).getLast? = some ((a :: tl).getLast (by simp)) :=
        List.getLast?_eq_getLast _ _
      rw [hlast]
      simp only
      rw [hlen]

/-- C5 (witness): at maximum 1650 the band is `[1600, 1650]` and series
`[1650, 1500]` has one in-band sample, giving holding time 5. -/
theorem C5_witness :
    (calculate_holding_time_and_pour_time [some 1650, some 1500] 1650 (some 0)).1 =
      some (1 * 5) :=
  (C5_theorem [some 1650, some 1500] 1650 0).2.2 1 (by with_unfolding_all decide)
    (by norm_num)

/-! ## Claim C6 -/

/-- C6: the full holding time is `(fill - argmax) * 5` seconds, computed
only when the fill index is at or after the pyrometer argmax, hence
non-negative whenever non-null, and null when the fill precedes the
argmax. -/
theorem C6_theorem (pyro : List (Option ℚ)) (f : ℕ) :
    (∀ t, full_holding_time pyro (some f) = some t →
      t = ((f : ℤ) - idxmaxO pyro) * 5 ∧ 0 ≤ t ∧ idxmaxO pyro ≤ f) ∧
    (f < idxmaxO pyro → full_holding_time pyro (some f) = none) := by
  constructor
  · intro t ht
    have ht2 : (if idxmaxO pyro ≤ f then some (((f : ℤ) - idxmaxO pyro) * 5)
        else none) = some t := ht
    by_cases h : idxmaxO pyro ≤ f
    · rw [if_pos h] at ht2
      have he := Option.some_inj.mp ht2
      refine ⟨he.symm, ?_, h⟩
      rw [← he]
      have hc : (idxmaxO pyro : ℤ) ≤ (f : ℤ) := by exact_mod_cast h
      have h5 : (0 : ℤ) ≤ (f : ℤ) - idxmaxO pyro := by linarith
      linarith
    · rw [if_neg h] at ht2
      exact absurd ht2 (by simp)
  · intro hlt
    show (if idxmaxO pyro ≤ f then some (((f : ℤ) - idxmaxO pyro) * 5) else none) = none
    rw [if_neg (not_le.mpr hlt)]

/-- C6 (witness): with the pyrometer maximum at position 1, a fill at
position 2 yields a non-negative duration and a fill at position 0
yields null. -/
theorem C6_witness :
    ((5 : ℤ) = ((2 : ℤ) - idxmaxO [some 1000, some 1600, some 1200]) * 5 ∧
      0 ≤ (5 : ℤ) ∧ idxmaxO [some 1000, some 1600, some 1200] ≤ 2) ∧
    full_holding_time [some 1000, some 1600, some 1200] (some 0) = none :=
  ⟨(C6_theorem [some 1000, some 1600, some 1200] 2).1 5 (by with_unfolding_all decide),
    (C6_theorem [some 1000, some 1600, some 1200] 0).2 (by with_unfolding_all decide)⟩

/-! ## Claim C8 -/

/-- C8: `speed_form` yields null speeds and status `Form_OK` for
segments shorter than two samples and for segments whose filtered speed
sequence has no positive non-missing value. -/
theorem C8_theorem (seg : List ℚ) :
    (seg.length < 2 → speedFormSeg seg = (none, none, "Form_OK")) ∧
    (posFiltered seg = [] → speedFormSeg seg = (none, none, "Form_OK")) := by
  constructor
  · intro h
    unfold speedFormSeg
    rw [if_pos h]
  · intro h
    unfold speedFormSeg
    by_cases h1 : seg.length < 2
    · rw [if_pos h1]
    · rw [if_neg h1]
      by_cases h2 : rawSpeeds seg = []
      · rw [if_pos h2]
      · rw [if_neg h2, if_pos h]

/-- C8 (witness): the three-sample decreasing segment `[5, 4, 3]` has
only blanked filtered speeds, hence null speeds and `Form_OK`. -/
theorem C8_witness : speedFormSeg [5, 4, 3] = (none, none, "Form_OK") :=
  (C8_theorem [5, 4, 3]).2 (by with_unfolding_all decide)

/-! ## Claim C10 -/

/-- C10: the claim states `find_stable_value` always returns a value
between the minimum and maximum of a nonempty input; on the constant
input `[5]` numpy widens the degenerate histogram range to
`[4.5, 5.5]` and the returned bin center 5.005 exceeds the maximum. -/
theorem C10_counterexample :
    find_stable_value [(5 : ℚ)] = 1001 / 200 ∧ qmin [(5 : ℚ)] = 5 ∧
    qmax [(5 : ℚ)] = 5 ∧ ¬ (find_stable_value [(5 : ℚ)] ≤ qmax [(5 : ℚ)]) := by
  refine ⟨by with_unfolding_all decide, by with_unfolding_all decide,
    by with_unfolding_all decide, by with_unfolding_all decide⟩

/-- C10 (amended): `find_stable_value` returns 0 on an empty input, and
on a nonempty input whose minimum is strictly below its maximum it
returns the center of the most populous of 100 equal-width bins over
`[min, max]`, which lies between the minimum and the maximum; when all
values coincide the histogram range is widened and the result can exceed
the maximum. -/
theorem C10_theorem (vs : List ℚ) :
    (vs = [] → find_stable_value vs = 0) ∧
    (vs ≠ [] → qmin vs < qmax vs →
      qmin vs ≤ find_stable_value vs ∧ find_stable_value vs ≤ qmax vs) := by
  constructor
  · intro h
    rw [find_stable_value, if_pos h]
  · intro hne hlt
    have hne0 : qmin vs ≠ qmax vs := ne_of_lt hlt
    have hrange : histRange vs = (qmin vs, qmax vs) := by
      unfold histRange
      rw [if_neg hne0]
    have hlen : (hist100 vs (histRange vs).1 (histRange vs).2).length = 100 := by
      unfold hist100
      simp
    have hkn := argmaxIdx_lt (hist100 vs (histRange vs).1 (histRange vs).2)
      (by intro hnil; rw [hnil] at hlen; simp at hlen)
    rw [hlen] at hkn
    set k := argmaxIdx (hist100 vs (histRange vs).1 (histRange vs).2) with hkdef
    set mn := qmin vs with hmn
    set mx := qmax vs with hmx
    rw [find_stable_value, if_neg hne, ← hkdef, hrange]
    dsimp only
    have hkq : (k : ℚ) ≤ 99 := by exact_mod_cast Nat.lt_succ_iff.mp hkn
    have hk0 : (0 : ℚ) ≤ (k : ℚ) := by positivity
    constructor
    · have hnn : 0 ≤ (2 * (k : ℚ) + 1) * ((mx - mn) / 100) :=
        mul_nonneg (by positivity) (div_nonneg (by linarith) (by norm_num))
      nlinarith [hnn]
    · nlinarith [hkq, hk0, hlt.le]

/-- C10 (witness): on `[1, 2]` the stable value 1.005 lies between the
minimum and the maximum. -/
theorem C10_witness :
    qmin [(1 : ℚ), 2] ≤ find_stable_value [(1 : ℚ), 2] ∧
    find_stable_value [(1 : ℚ), 2] ≤ qmax [(1 : ℚ), 2] :=
  (C10_theorem [(1 : ℚ), 2]).2 (by simp) (by with_unfolding_all decide)

/-! ## Claim C7 -/

theorem ratFloor_eq_intFloor (q : ℚ) : Rat.floor q = ⌊q⌋ := rfl

theorem rangeWidth_pos : (0 : ℚ) < rangeWidth := by
  norm_num [rangeWidth, mainHi, mainLo]

theorem upRanges_eq (maxv curr : ℚ) :
    upRanges maxv curr =
      if curr ≤ maxv + rangeWidth then
        (curr, curr + rangeWidth) :: upRanges maxv (curr + rangeWidth)
      else [] := by
  unfold upRanges
  by_cases h : curr ≤ maxv + rangeWidth
  · rw [if_pos h]
    have hd : 0 ≤ (maxv + rangeWidth - curr) / rangeWidth :=
      div_nonneg (by linarith) rangeWidth_pos.le
    have hfl : Rat.floor ((maxv + rangeWidth - (curr + rangeWidth)) / rangeWidth)
        = Rat.floor ((maxv + rangeWidth - curr) / rangeWidth) - 1 := by
      have hx : (maxv + rangeWidth - (curr + rangeWidth)) / rangeWidth
          = (maxv + rangeWidth - curr) / rangeWidth - 1 := by
        have hW : rangeWidth ≠ 0 := rangeWidth_pos.ne'
        field_simp
        ring
      rw [ratFloor_eq_intFloor, ratFloor_eq_intFloor, hx, Int.floor_sub_one]
    have hge : 0 ≤ Rat.floor ((maxv + rangeWidth - curr) / rangeWidth) := by
      rw [ratFloor_eq_intFloor]
      exact Int.floor_nonneg.mpr hd
    have hfuel : upFuel maxv curr = upFuel maxv (curr + rangeWidth) + 1 := by
      unfold upFuel
      rw [hfl]
      omega
    rw [hfuel, upRangesAux, if_pos h]
  · rw [if_neg h]
    have hneg : (maxv + rangeWidth - curr) / rangeWidth < 0 :=
      div_neg_of_neg_of_pos (by linarith) rangeWidth_pos
    have hlt : Rat.floor ((maxv + rangeWidth - curr) / rangeWidth) < 0 := by
      rw [ratFloor_eq_intFloor]
      by_contra hc
      exact absurd (Int.floor_nonneg.mp (not_lt.mp hc)) (not_le.mpr hneg)
    have hfuel : upFuel maxv curr = 0 := by
      unfold upFuel
      omega
    rw [hfuel, upRangesAux]

theorem downRanges_eq (minv curr : ℚ) :
    downRanges minv curr =
      if minv - rangeWidth ≤ curr then
        (curr - rangeWidth, curr) :: downRanges minv (curr - rangeWidth)
      else [] := by
  unfold downRanges
  by_cases h : minv - rangeWidth ≤ curr
  · rw [if_pos h]
    have hd : 0 ≤ (curr - (minv - rangeWidth)) / rangeWidth :=
      div_nonneg (by linarith) rangeWidth_pos.le
    have hfl : Rat.floor ((curr - rangeWidth - (minv - rangeWidth)) / rangeWidth)
        = Rat.floor ((curr - (minv - rangeWidth)) / rangeWidth) - 1 := by
      have hx : (curr - rangeWidth - (minv - rangeWidth)) / rangeWidth
          = (curr - (minv - rangeWidth)) / rangeWidth - 1 := by
        have hW : rangeWidth ≠ 0 := rangeWidth_pos.ne'
        field_simp
        ring
      rw [ratFloor_eq_intFloor, ratFloor_eq_intFloor, hx, Int.floor_sub_one]
    have hge : 0 ≤ Rat.floor ((curr - (minv - rangeWidth)) / rangeWidth) := by
      rw [ratFloor_eq_intFloor]
      exact Int.floor_nonneg.mpr hd
    have hfuel : downFuel minv curr = downFuel minv (curr - rangeWidth) + 1 := by
      unfold downFuel
      rw [hfl]
      omega
    rw [hfuel, downRangesAux, if_pos h]
  · rw [if_neg h]
    have hneg : (curr - (minv - rangeWidth)) / rangeWidth < 0 :=
      div_neg_of_neg_of_pos (by linarith) rangeWidth_pos
    have hlt : Rat.floor ((curr - (minv - rangeWidth)) / rangeWidth) < 0 := by
      rw [ratFloor_eq_intFloor]
      by_contra hc
      exact absurd (Int.floor_nonneg.mp (not_lt.mp hc)) (not_le.mpr hneg)
    have hfuel : downFuel minv curr = 0 := by
      unfold downFuel
      omega
    rw [hfuel, downRangesAux]

theorem upRangesAux_width : ∀ (n : ℕ) (maxv curr : ℚ) (p : ℚ × ℚ),
    p ∈ upRangesAux n maxv curr → p.2 - p.1 = rangeWidth := by
  intro n
  induction n with
  | zero =>
    intro maxv curr p hp
    simp [upRangesAux] at hp
  | succ n ih =>
    intro maxv curr p hp
    rw [upRangesAux] at hp
    by_cases h : curr ≤ maxv + rangeWidth
    · rw [if_pos h] at hp
      rcases List.mem_cons.mp hp with h1 | h2
      · rw [h1]
        ring
      · exact ih _ _ _ h2
    · rw [if_neg h] at hp
      simp at hp

theorem downRangesAux_width : ∀ (n : ℕ) (minv curr : ℚ) (p : ℚ × ℚ),
    p ∈ downRangesAux n minv curr → p.2 - p.1 = rangeWidth := by
  intro n
  induction n with
  | zero =>
    intro minv curr p hp
    simp [downRangesAux] at hp
  | succ n ih =>
    intro minv curr p hp
    rw [downRangesAux] at hp
    by_cases h : minv - rangeWidth ≤ curr
    · rw [if_pos h] at hp
      rcases List.mem_cons.mp hp with h1 | h2
      · rw [h1]
        ring
      · exact ih _ _ _ h2
    · rw [if_neg h] at hp
      simp at hp

theorem mem_sortedSet (l : List (ℚ × ℚ)) (p : ℚ × ℚ) : p ∈ sortedSet l ↔ p ∈ l := by
  unfold sortedSet
  rw [(List.perm_insertionSort lexLe l.dedup).mem_iff]
  exact List.mem_dedup

theorem foldArg_keep {α : Type} (cnt : α → ℕ) (b : α) : ∀ l : List α,
    (∀ x ∈ l, cnt x ≤ cnt b) → l.foldl (argStep cnt) (some b) = some b := by
  intro l
  induction l with
  | nil => intro _; rfl
  | cons x xs ih =>
    intro h
    have hx : ¬ cnt b < cnt x := not_lt.mpr (h x (List.mem_cons_self x xs))
    rw [List.foldl_cons]
    show List.foldl (argStep cnt) (if cnt b < cnt x then some x else some b) xs = some b
    rw [if_neg hx]
    exact ih (fun y hy => h y (List.mem_cons_of_mem x hy))

theorem foldArg_max {α : Type} (cnt : α → ℕ) : ∀ (l : List α) (acc : Option α) (m : α),
    l.foldl (argStep cnt) acc = some m →
    (∀ x ∈ l, cnt x ≤ cnt m) ∧ (m ∈ l ∨ acc = some m) ∧
      (∀ c, acc = some c → cnt c ≤ cnt m) := by
  intro l
  induction l with
  | nil =>
    intro acc m h
    refine ⟨by simp, Or.inr h, fun c hc => ?_⟩
    rw [hc] at h
    rw [Option.some_inj.mp h]
  | cons x xs ih =>
    intro acc m h
    rw [List.foldl_cons] at h
    obtain ⟨hall, hmem, hacc⟩ := ih (argStep cnt acc x) m h
    have hstep : ∃ c, argStep cnt acc x = some c ∧ cnt x ≤ cnt c := by
      match acc with
      | none => exact ⟨x, rfl, le_refl _⟩
      | some b =>
        by_cases hb : cnt b < cnt x
        · exact ⟨x, by rw [argStep, if_pos hb], le_refl _⟩
        · exact ⟨b, by rw [argStep, if_neg hb], not_lt.mp hb⟩
    obtain ⟨c, hc, hxc⟩ := hstep
    refine ⟨?_, ?_, ?_⟩
    · intro y hy
      rcases List.mem_cons.mp hy with h1 | h2
      · rw [h1]
        exact le_trans hxc (hacc c hc)
      · exact hall y h2
    · rcases hmem with h1 | h2
      · exact Or.inl (List.mem_cons_of_mem x h1)
      · match acc with
        | none =>
          have hxm : x = m := Option.some_inj.mp h2
          exact Or.inl (hxm ▸ List.mem_cons_self x xs)
        | some b =>
          have h3 : (if cnt b < cnt x then some x else some b) = some m := h2
          by_cases hb : cnt b < cnt x
          · rw [if_pos hb] at h3
            have hxm : x = m := Option.some_inj.mp h3
            exact Or.inl (hxm ▸ List.mem_cons_self x xs)
          · rw [if_neg hb] at h3
            exact Or.inr h3
    · intro d hd
      subst hd
      have hc2 : (if cnt d < cnt x then some x else some d) = some c := hc
      by_cases hb : cnt d < cnt x
      · rw [if_pos hb] at hc2
        have hxc : x = c := Option.some_inj.mp hc2
        exact le_trans (le_of_lt (hxc ▸ hb)) (hacc c hc)
      · rw [if_neg hb] at hc2
        have hdc : d = c := Option.some_inj.mp hc2
        exact hdc ▸ hacc c hc

theorem foldArg_reach {α : Type} (cnt : α → ℕ) (m : α) : ∀ (l : List α) (acc : Option α),
    m ∈ l → (∀ x ∈ l, x ≠ m → cnt x < cnt m) →
    (∀ c, acc = some c → cnt c < cnt m) →
    l.foldl (argStep cnt) acc = some m := by
  intro l
  induction l with
  | nil => intro acc hm; exact absurd hm (by simp)
  | cons x xs ih =>
    intro acc hm hlt hacc
    rw [List.foldl_cons]
    by_cases hxm : x = m
    · have hstep : argStep cnt acc x = some m := by
        match acc with
        | none => exact congrArg some hxm
        | some b =>
          have hb : cnt b < cnt x := by
            rw [hxm]
            exact hacc b rfl
          have h3 : argStep cnt (some b) x = some x := by
            show (if cnt b < cnt x then some x else some b) = some x
            rw [if_pos hb]
          rw [h3, hxm]
      rw [hstep]
      apply foldArg_keep
      intro y hy
      by_cases hym : y = m
      · rw [hym]
      · exact (hlt y (List.mem_cons_of_mem x hy) hym).le
    · have hm2 : m ∈ xs := by
        rcases List.mem_cons.mp hm with h1 | h2
        · exact absurd h1.symm hxm
        · exact h2
      apply ih (argStep cnt acc x) hm2
        (fun y hy hym => hlt y (List.mem_cons_of_mem x hy) hym)
      intro c hc
      match acc with
      | none =>
        have hxc : x = c := Option.some_inj.mp hc
        exact hxc ▸ hlt x (List.mem_cons_self x xs) hxm
      | some b =>
        have hc2 : (if cnt b < cnt x then some x else some b) = some c := hc
        by_cases hb : cnt b < cnt x
        · rw [if_pos hb] at hc2
          have hxc : x = c := Option.some_inj.mp hc2
          exact hxc ▸ hlt x (List.mem_cons_self x xs) hxm
        · rw [if_neg hb] at hc2
          have hbc : b = c := Option.some_inj.mp hc2
          exact hbc ▸ hacc b rfl

/-- C7: `is_valid_growth` rejects an empty delta list; when it accepts,
the main band `[0.045, 0.2)` is one of the tiled sub-bands and no
sub-band holds more deltas than it; conversely, when the main band is a
sub-band that strictly dominates every other sub-band, the test accepts;
and every tiled sub-band is exactly `0.2 - 0.045` wide. -/
theorem C7_theorem (speeds : List ℚ) :
    (is_valid_growth [] = false) ∧
    (is_valid_growth speeds = true →
      speeds ≠ [] ∧ (mainLo, mainHi) ∈ subrangesOf speeds ∧
      ∀ sr ∈ subrangesOf speeds,
        bandCount speeds (subrangesOf speeds) sr ≤
          bandCount speeds (subrangesOf speeds) (mainLo, mainHi)) ∧
    (speeds ≠ [] → (mainLo, mainHi) ∈ subrangesOf speeds →
      (∀ sr ∈ subrangesOf speeds, sr ≠ (mainLo, mainHi) →
        bandCount speeds (subrangesOf speeds) sr <
          bandCount speeds (subrangesOf speeds) (mainLo, mainHi)) →
      is_valid_growth speeds = true) ∧
    (∀ sr ∈ subrangesOf speeds, sr.2 - sr.1 = rangeWidth) := by
  refine ⟨rfl, ?_, ?_, ?_⟩
  · intro h
    unfold is_valid_growth at h
    by_cases hsp : speeds = []
    · rw [if_pos hsp] at h
      exact absurd h (by simp)
    · rw [if_neg hsp] at h
      refine ⟨hsp, ?_⟩
      match hfa : firstArgmaxKey (bandCount speeds (subrangesOf speeds))
          (subrangesOf speeds) with
      | none =>
        rw [hfa] at h
        exact absurd h (by simp)
      | some m =>
        rw [hfa] at h
        have h2 : (m == (mainLo, mainHi)) = true := h
        have hm : m = (mainLo, mainHi) := beq_iff_eq.mp h2
        obtain ⟨hall, hmem, _⟩ := foldArg_max _ _ _ _ hfa
        rw [hm] at hall hmem
        exact ⟨hmem.resolve_right (by simp), hall⟩
  · intro hne hmem hstrict
    unfold is_valid_growth
    rw [if_neg hne]
    have := foldArg_reach (bandCount speeds (subrangesOf speeds)) (mainLo, mainHi)
      (subrangesOf speeds) none hmem hstrict (fun c hc => by cases hc)
    unfold firstArgmaxKey
    rw [this]
    simp
  · intro sr hsr
    unfold subrangesOf at hsr
    rw [mem_sortedSet] at hsr
    rcases List.mem_append.mp hsr with h1 | h2
    · exact upRangesAux_width _ _ _ _ h1
    · exact downRangesAux_width _ _ _ _ h2

/-- C7 (witness): with deltas `[0.1, 0.1, 0.3]` the main band strictly
dominates every other sub-band and the growth test accepts. -/
theorem C7_witness : is_valid_growth [0.1, 0.1, 0.3] = true :=
  (C7_theorem [0.1, 0.1, 0.3]).2.2.1 (by simp)
    (by with_unfolding_all decide) (by with_unfolding_all decide)

/-! ## Claim C2 -/

theorem getLast?_cons_of_ne_nil {α : Type} (a : α) (l : List α) (h : l ≠ []) :
    (a :: l).getLast? = l.getLast? := by
  cases l with
  | nil => exact absurd rfl h
  | cons b tl => exact List.getLast?_cons_cons

theorem foldl_leakStep : ∀ (l : List (List ℚ)) (acc : Option (ℤ × ℚ)),
    l.foldl leakStep acc = (lastQualifying l).or acc := by
  intro l
  induction l with
  | nil => intro acc; rfl
  | cons x xs ih =>
    intro acc
    rw [List.foldl_cons, ih (leakStep acc x)]
    unfold lastQualifying
    rw [List.filterMap_cons]
    cases hp : process_leakage_segment_math x with
    | none =>
      have hstep : leakStep acc x = acc := by
        unfold leakStep
        rw [hp]
      rw [hstep]
    | some r =>
      have hstep : leakStep acc x = if 100 ≤ r.1 then some r else acc := by
        unfold leakStep
        rw [hp]
      rw [hstep, List.filter_cons]
      by_cases hq : 100 ≤ r.1
      · rw [if_pos hq]
        rw [if_pos (by exact decide_eq_true hq)]
        cases hql : ((xs.filterMap process_leakage_segment_math).filter
            (fun r => decide (100 ≤ r.1))).getLast? with
        | none =>
          have hnil := List.getLast?_eq_none_iff.mp hql
          rw [hnil]
          rfl
        | some s =>
          have hne : (xs.filterMap process_leakage_segment_math).filter
              (fun r => decide (100 ≤ r.1)) ≠ [] := by
            intro hcon
            rw [hcon] at hql
            exact absurd hql (by simp)
          rw [getLast?_cons_of_ne_nil _ _ hne, hql]
          rfl
      · rw [if_neg hq]
        rw [if_neg (by simpa using hq)]

theorem foldl_qmin2_spec : ∀ (l : List ℚ) (acc : ℚ),
    (l.foldl qmin2 acc = acc ∨ l.foldl qmin2 acc ∈ l) ∧
    l.foldl qmin2 acc ≤ acc ∧ ∀ v ∈ l, l.foldl qmin2 acc ≤ v := by
  intro l
  induction l with
  | nil => intro acc; exact ⟨Or.inl rfl, le_refl _, by simp⟩
  | cons x xs ih =>
    intro acc
    rw [List.foldl_cons]
    obtain ⟨hmem, hle, hall⟩ := ih (qmin2 acc x)
    have hqx : qmin2 acc x ≤ x ∧ qmin2 acc x ≤ acc := by
      unfold qmin2
      by_cases h : acc ≤ x
      · rw [if_pos h]; exact ⟨h, le_refl _⟩
      · rw [if_neg h]; exact ⟨le_refl _, (not_le.mp h).le⟩
    refine ⟨?_, le_trans hle hqx.2, ?_⟩
    · rcases hmem with h1 | h2
      · by_cases h : acc ≤ x
        · left
          rw [h1]
          unfold qmin2
          rw [if_pos h]
        · right
          rw [h1]
          unfold qmin2
          rw [if_neg h]
          exact List.mem_cons_self x xs
      · right; exact List.mem_cons_of_mem _ h2
    · intro v hv
      rcases List.mem_cons.mp hv with h1 | h2
      · rw [h1]; exact le_trans hle hqx.1
      · exact hall v h2

theorem foldl_qmax2_spec : ∀ (l : List ℚ) (acc : ℚ),
    (l.foldl qmax2 acc = acc ∨ l.foldl qmax2 acc ∈ l) ∧
    acc ≤ l.foldl qmax2 acc ∧ ∀ v ∈ l, v ≤ l.foldl qmax2 acc := by
  intro l
  induction l with
  | nil => intro acc; exact ⟨Or.inl rfl, le_refl _, by simp⟩
  | cons x xs ih =>
    intro acc
    rw [List.foldl_cons]
    obtain ⟨hmem, hle, hall⟩ := ih (qmax2 acc x)
    have hqx : x ≤ qmax2 acc x ∧ acc ≤ qmax2 acc x := by
      unfold qmax2
      by_cases h : x ≤ acc
      · rw [if_pos h]; exact ⟨h, le_refl _⟩
      · rw [if_neg h]; exact ⟨le_refl _, (not_le.mp h).le⟩
    refine ⟨?_, le_trans hqx.2 hle, ?_⟩
    · rcases hmem with h1 | h2
      · by_cases h : x ≤ acc
        · left
          rw [h1]
          unfold qmax2
          rw [if_pos h]
        · right
          rw [h1]
          unfold qmax2
          rw [if_neg h]
          exact List.mem_cons_self x xs
      · right; exact List.mem_cons_of_mem _ h2
    · intro v hv
      rcases List.mem_cons.mp hv with h1 | h2
      · rw [h1]; exact le_trans hqx.1 hle
      · exact hall v h2

theorem qmin_eq (l : List ℚ) (c : ℚ) (hmem : c ∈ l) (hall : ∀ v ∈ l, c ≤ v) :
    qmin l = c := by
  cases l with
  | nil => exact absurd hmem (by simp)
  | cons x xs =>
    show xs.foldl qmin2 x = c
    obtain ⟨hm, hle, hallf⟩ := foldl_qmin2_spec xs x
    apply le_antisymm
    · rcases List.mem_cons.mp hmem with h1 | h2
      · rw [h1]; exact hle
      · exact hallf c h2
    · rcases hm with h1 | h2
      · rw [h1]; exact hall x (List.mem_cons_self x xs)
      · exact hall _ (List.mem_cons_of_mem _ h2)

theorem qmax_eq (l : List ℚ) (c : ℚ) (hmem : c ∈ l) (hall : ∀ v ∈ l, v ≤ c) :
    qmax l = c := by
  cases l with
  | nil => exact absurd hmem (by simp)
  | cons x xs =>
    show xs.foldl qmax2 x = c
    obtain ⟨hm, hle, hallf⟩ := foldl_qmax2_spec xs x
    apply le_antisymm
    · rcases hm with h1 | h2
      · rw [h1]; exact hall x (List.mem_cons_self x xs)
      · exact hall _ (List.mem_cons_of_mem _ h2)
    · rcases List.mem_cons.mp hmem with h1 | h2
      · rw [h1]; exact hle
      · exact hallf c h2

theorem exScaled_ne_nil : exScaled ≠ [] := by with_unfolding_all decide

theorem exScaled_length : exScaled.length = 266 := by with_unfolding_all decide

theorem leakTemp_exDf : leakTemp exDf = exScaled := by with_unfolding_all decide

theorem qmin_exScaled : qmin exScaled = 20 :=
  qmin_eq _ _ (by with_unfolding_all decide) (by with_unfolding_all decide)

theorem qmax_exScaled : qmax exScaled = 199 / 5 :=
  qmax_eq _ _ (by with_unfolding_all decide) (by with_unfolding_all decide)

theorem histRange_exScaled : histRange exScaled = (20, 199 / 5) := by
  unfold histRange
  rw [qmin_exScaled, qmax_exScaled, if_neg (by norm_num)]

theorem argmax_exScaled : argmaxIdx (hist100 exScaled 20 (199 / 5)) = 0 := by
  with_unfolding_all decide

theorem fsv_exScaled : find_stable_value exScaled = 20099 / 1000 := by
  unfold find_stable_value
  rw [if_neg exScaled_ne_nil, histRange_exScaled]
  dsimp only
  rw [argmax_exScaled]
  norm_num

theorem stableIdxs_exScaled :
    stableIdxs exScaled (20099 / 1000) =
      (List.range 20).map (fun i => 113 + i) ++ (List.range 20).map (fun i => 246 + i) := by
  with_unfolding_all decide

theorem candidateIvs_exDf : candidateIvs exDf = [(113, 132), (246, 265)] := by
  unfold candidateIvs
  rw [leakTemp_exDf, fsv_exScaled, stableIdxs_exScaled]
  with_unfolding_all decide

theorem betweenSlice_exScaled : pySlice exScaled 133 246 = betweenVals := by
  with_unfolding_all decide

theorem leadSlice_exScaled : pySlice exScaled 0 113 = leadVals := by
  with_unfolding_all decide

theorem diffs_betweenVals : diffs betweenVals = List.replicate 112 ((3 : ℚ) / 20) := by
  with_unfolding_all decide

theorem diffs_leadVals : diffs leadVals = List.replicate 112 ((1 : ℚ) / 10) := by
  with_unfolding_all decide

theorem qmax_betweenVals : qmax betweenVals = 199 / 5 :=
  qmax_eq _ _ (by with_unfolding_all decide) (by with_unfolding_all decide)

theorem qmin_rep320 : qmin (List.replicate 112 ((3 : ℚ) / 20)) = 3 / 20 :=
  qmin_eq _ _ (by with_unfolding_all decide) (by with_unfolding_all decide)

theorem qmax_rep320 : qmax (List.replicate 112 ((3 : ℚ) / 20)) = 3 / 20 :=
  qmax_eq _ _ (by with_unfolding_all decide) (by with_unfolding_all decide)

theorem qmin_rep110 : qmin (List.replicate 112 ((1 : ℚ) / 10)) = 1 / 10 :=
  qmin_eq _ _ (by with_unfolding_all decide) (by with_unfolding_all decide)

theorem qmax_rep110 : qmax (List.replicate 112 ((1 : ℚ) / 10)) = 1 / 10 :=
  qmax_eq _ _ (by with_unfolding_all decide) (by with_unfolding_all decide)

theorem subranges_rep320 :
    subrangesOf (List.replicate 112 ((3 : ℚ) / 20)) =
      [(-11 / 100, 9 / 200), (9 / 200, 1 / 5), (1 / 5, 71 / 200)] := by
  unfold subrangesOf
  rw [qmax_rep320, qmin_rep320]
  with_unfolding_all decide

theorem subranges_rep110 :
    subrangesOf (List.replicate 112 ((1 : ℚ) / 10)) =
      [(-11 / 100, 9 / 200), (9 / 200, 1 / 5), (1 / 5, 71 / 200)] := by
  unfold subrangesOf
  rw [qmax_rep110, qmin_rep110]
  with_unfolding_all decide

theorem growth_rep320 : is_valid_growth (List.replicate 112 ((3 : ℚ) / 20)) = true := by
  unfold is_valid_growth
  rw [if_neg (by with_unfolding_all decide : List.replicate 112 ((3 : ℚ) / 20) ≠ []),
    subranges_rep320]
  with_unfolding_all decide

theorem growth_rep110 : is_valid_growth (List.replicate 112 ((1 : ℚ) / 10)) = true := by
  unfold is_valid_growth
  rw [if_neg (by with_unfolding_all decide : List.replicate 112 ((1 : ℚ) / 10) ≠ []),
    subranges_rep110]
  with_unfolding_all decide

theorem betweenSegs_exScaled :
    betweenSegs exScaled [(113, 132), (246, 265)] = [pySlice exScaled 127 251] := by
  unfold betweenSegs
  rw [show (([(113, 132), (246, 265)] : List (ℕ × ℕ)).zip
      ([(113, 132), (246, 265)] : List (ℕ × ℕ)).tail) = [((113, 132), (246, 265))] from by
    decide]
  rw [List.filterMap_cons, List.filterMap_nil]
  dsimp only
  norm_num
  rw [betweenSlice_exScaled, qmax_betweenVals, diffs_betweenVals, growth_rep320]
  rw [if_neg (by with_unfolding_all decide : ¬(betweenVals = [] ∨ (60 : ℚ) < 199 / 5))]
  rw [if_pos rfl, exScaled_length]
  norm_num

theorem leadSegs_exScaled :
    leadSegs exScaled [(113, 132), (246, 265)] = [pySlice exScaled 0 118] := by
  show (if pySlice exScaled 0 113 ≠ [] ∧
        is_valid_growth (diffs (pySlice exScaled 0 113)) = true then
      [pySlice exScaled 0 (min exScaled.length 118)]
    else []) = [pySlice exScaled 0 118]
  rw [leadSlice_exScaled, diffs_leadVals, growth_rep110]
  rw [if_pos ⟨by with_unfolding_all decide, rfl⟩, exScaled_length]
  norm_num

theorem trailSegs_exScaled : trailSegs exScaled [(113, 132), (246, 265)] = [] := by
  with_unfolding_all decide

theorem candidateSegs_exDf :
    candidateSegs exDf = [pySlice exScaled 127 251, pySlice exScaled 0 118] := by
  unfold candidateSegs
  rw [leakTemp_exDf, if_neg exScaled_ne_nil, candidateIvs_exDf,
    betweenSegs_exScaled, leadSegs_exScaled, trailSegs_exScaled]
  rfl

theorem candidateSegsStream_exDf :
    candidateSegsStream exDf = [pySlice exScaled 0 118, pySlice exScaled 127 251] := by
  unfold candidateSegsStream
  rw [leakTemp_exDf, if_neg exScaled_ne_nil, candidateIvs_exDf,
    betweenSegs_exScaled, leadSegs_exScaled, trailSegs_exScaled]
  rfl

theorem process_betweenSeg :
    process_leakage_segment_math (pySlice exScaled 127 251) = some (106, 123) := by
  with_unfolding_all decide

theorem process_leadSeg :
    process_leakage_segment_math (pySlice exScaled 0 118) = some (100, 82) := by
  with_unfolding_all decide

/-- C2: the claim states that among qualifying candidate runs the one
occurring last in stream order wins; on `exDf` both the lead-in ramp
(result 82 over offset 100) and the later between-interval ramp (result
123 over offset 106) qualify, yet the code returns the lead-in result
because it appends the lead-in candidate after the between-interval
candidates. -/
theorem C2_counterexample :
    get_last_valid_leakage exDf = some (100, 82) ∧
    getLastValidLeakageStream exDf = some (106, 123) ∧
    lastQualifying (candidateSegsStream exDf) = some (106, 123) ∧
    (((candidateSegs exDf).filterMap process_leakage_segment_math).filter
      (fun r => decide (100 ≤ r.1))).length = 2 ∧
    ((100 : ℤ), (82 : ℚ)) ≠ ((106 : ℤ), (123 : ℚ)) := by
  have e1 : leakStep none (pySlice exScaled 127 251) = some (106, 123) := by
    unfold leakStep
    rw [process_betweenSeg]
    with_unfolding_all decide
  have e2 : leakStep (some ((106 : ℤ), (123 : ℚ))) (pySlice exScaled 0 118)
      = some (100, 82) := by
    unfold leakStep
    rw [process_leadSeg]
    with_unfolding_all decide
  have e3 : leakStep none (pySlice exScaled 0 118) = some (100, 82) := by
    unfold leakStep
    rw [process_leadSeg]
    with_unfolding_all decide
  have e4 : leakStep (some ((100 : ℤ), (82 : ℚ))) (pySlice exScaled 127 251)
      = some (106, 123) := by
    unfold leakStep
    rw [process_betweenSeg]
    with_unfolding_all decide
  refine ⟨?_, ?_, ?_, ?_, by norm_num⟩
  · unfold get_last_valid_leakage
    rw [leakTemp_exDf, if_neg exScaled_ne_nil, candidateSegs_exDf]
    rw [List.foldl_cons, e1, List.foldl_cons, e2, List.foldl_nil]
  · unfold getLastValidLeakageStream
    rw [leakTemp_exDf, if_neg exScaled_ne_nil, candidateSegsStream_exDf]
    rw [List.foldl_cons, e3, List.foldl_cons, e4, List.foldl_nil]
  · unfold lastQualifying
    rw [candidateSegsStream_exDf, List.filterMap_cons, process_leadSeg,
      List.filterMap_cons, process_betweenSeg, List.filterMap_nil]
    with_unfolding_all decide
  · rw [candidateSegs_exDf, List.filterMap_cons, process_betweenSeg,
      List.filterMap_cons, process_leadSeg, List.filterMap_nil]
    with_unfolding_all decide

/-- C2 (amended): `get_last_valid_leakage` returns the result of the
last qualifying candidate run in its processing order, which appends the
between-interval candidates in stream order first, then the lead-in
candidate, then the trail-out candidate; earlier qualifying candidates
in that order are overwritten. -/
theorem C2_theorem (df : List LRow) :
    get_last_valid_leakage df = lastQualifying (candidateSegs df) := by
  unfold get_last_valid_leakage
  by_cases h : leakTemp df = []
  · rw [if_pos h]
    have hseg : candidateSegs df = [] := by
      unfold candidateSegs
      rw [if_pos h]
    rw [hseg]
    rfl
  · rw [if_neg h, foldl_leakStep]
    exact Option.or_none


/-! ## Claim C3 -/

theorem takeWhile_getD_ne (l : List ℚ) : ∀ j, j < (l.takeWhile nzb).length → l.getD j 0 ≠ 0 := by
  induction l with
  | nil => intro j h; simp [List.takeWhile] at h
  | cons f rs ih =>
    intro j h
    by_cases hf : f ≠ 0
    · rw [List.takeWhile_cons_of_pos (by simp [nzb, hf]), List.length_cons] at h
      cases j with
      | zero => simpa [List.getD_cons_zero] using hf
      | succ j =>
        rw [List.getD_cons_succ]
        exact ih j (by omega)
    · rw [List.takeWhile_cons_of_neg (by simp [nzb]; simpa using hf)] at h
      simp at h

theorem takeWhile_stop (l : List ℚ) : (l.takeWhile nzb).length < l.length →
    l.getD (l.takeWhile nzb).length 0 = 0 := by
  induction l with
  | nil => intro h; simp at h
  | cons f rs ih =>
    intro h
    by_cases hf : f ≠ 0
    · rw [List.takeWhile_cons_of_pos (by simp [nzb, hf])] at h ⊢
      rw [List.length_cons, List.getD_cons_succ]
      simp only [List.length_cons] at h
      exact ih (by omega)
    · rw [List.takeWhile_cons_of_neg (by simp [nzb]; simpa using hf)]
      simp only [List.length_nil, List.getD_cons_zero]
      simpa using hf

theorem takeWhile_ge (l : List ℚ) : ∀ m, m ≤ l.length → (∀ j, j < m → l.getD j 0 ≠ 0) →
    m ≤ (l.takeWhile nzb).length := by
  induction l with
  | nil => intro m hm _; simpa using hm
  | cons f rs ih =>
    intro m hm hall
    cases m with
    | zero => omega
    | succ m2 =>
      have hf : f ≠ 0 := by simpa [List.getD_cons_zero] using hall 0 (by omega)
      rw [List.takeWhile_cons_of_pos (by simp [nzb, hf]), List.length_cons]
      have := ih m2 (by rw [List.length_cons] at hm; omega)
        (fun j hj => by simpa [List.getD_cons_succ] using hall (j + 1) (by omega))
      omega

theorem getD_drop_q (l : List ℚ) (k m : ℕ) : (l.drop k).getD m 0 = l.getD (k + m) 0 := by
  simp [List.getD_eq_getElem?_getD, List.getElem?_drop]

theorem valS_cons_self (f : ℚ) (rs : List ℚ) (i : ℕ) : valS (f :: rs) i i = f := by
  unfold valS
  rw [if_pos ⟨le_refl i, by rw [List.length_cons]; omega⟩]
  simp

theorem valS_cons_gt (f : ℚ) (rs : List ℚ) (i j : ℕ) (h : i < j) :
    valS (f :: rs) i j = valS rs (i + 1) j := by
  unfold valS
  by_cases hb : i + 1 ≤ j ∧ j < i + 1 + rs.length
  · rw [if_pos ⟨by omega, by rw [List.length_cons]; omega⟩, if_pos hb]
    rw [show j - i = (j - (i + 1)) + 1 from by omega, List.getD_cons_succ]
  · rw [if_neg (by rw [List.length_cons]; omega), if_neg hb]

theorem valS_drop (l : List ℚ) (k m j : ℕ) (h : m + k ≤ j) :
    valS (l.drop k) (m + k) j = valS l m j := by
  by_cases hk : k ≤ l.length
  · unfold valS
    rw [List.length_drop]
    by_cases hin : m ≤ j ∧ j < m + l.length
    · rw [if_pos ⟨h, by omega⟩, if_pos hin, getD_drop_q]
      congr 1
      omega
    · rw [if_neg (by omega), if_neg hin]
  · rw [List.drop_eq_nil_of_le (by omega)]
    unfold valS
    rw [if_neg (by simp), if_neg (by omega)]

theorem segsAux_some (rest : List ℚ) : ∀ (i s : ℕ), 1 ≤ i →
    segsAux rest i (some s) =
      (s, i - 1 + (rest.takeWhile nzb).length) ::
        segsAux (rest.drop ((rest.takeWhile nzb).length + 1))
          (i + (rest.takeWhile nzb).length + 1) none := by
  induction rest with
  | nil =>
    intro i s hi
    show [(s, i - 1)] = (s, i - 1 + 0) :: segsAux [] (i + 0 + 1) none
    rfl
  | cons f rs ih =>
    intro i s hi
    by_cases hf : f ≠ 0
    · have htw : (f :: rs).takeWhile nzb = f :: rs.takeWhile nzb :=
        List.takeWhile_cons_of_pos (by simp [nzb, hf])
      rw [show segsAux (f :: rs) i (some s) = segsAux rs (i + 1) (some s) from by
        rw [segsAux, if_pos hf]]
      rw [ih (i + 1) s (by omega), htw]
      rw [List.length_cons, List.drop_succ_cons]
      congr 2
      · omega
      · omega
    · have htw : (f :: rs).takeWhile nzb = [] :=
        List.takeWhile_cons_of_neg (by simp [nzb]; simpa using hf)
      rw [show segsAux (f :: rs) i (some s) = (s, i - 1) :: segsAux rs (i + 1) none from by
        rw [segsAux, if_neg hf]]
      rw [htw]
      show _ = (s, i - 1 + 0) :: segsAux ((f :: rs).drop 1) (i + 0 + 1) none
      rw [List.drop_one, List.tail_cons]
      congr 2


theorem valS_in (rest : List ℚ) (i j : ℕ) (h1 : i ≤ j) (h2 : j < i + rest.length) :
    valS rest i j = rest.getD (j - i) 0 := by
  unfold valS
  rw [if_pos ⟨h1, h2⟩]

theorem valS_out (rest : List ℚ) (i j : ℕ) (h : ¬(i ≤ j ∧ j < i + rest.length)) :
    valS rest i j = 0 := by
  unfold valS
  rw [if_neg h]

theorem valS_cons_drop (f : ℚ) (rs : List ℚ) (i k j : ℕ) (h : i + k + 2 ≤ j) :
    valS (rs.drop (k + 1)) (i + k + 2) j = valS (f :: rs) i j := by
  rw [show i + k + 2 = (i + 1) + (k + 1) from by omega]
  rw [valS_drop rs (k + 1) (i + 1) j (by omega)]
  rw [valS_cons_gt f rs i j (by omega)]

theorem maxRunS_cons_zero (rs : List ℚ) (i s e : ℕ) :
    MaxRunS ((0 : ℚ) :: rs) i s e ↔ MaxRunS rs (i + 1) s e := by
  constructor
  · rintro ⟨h1, h2, h3, h4, h5, h6⟩
    rw [List.length_cons] at h3
    have hs : i < s := by
      rcases Nat.lt_or_ge i s with h | h
      · exact h
      · exfalso
        have hsi : s = i := by omega
        have hv := h4 s (Finset.mem_Icc.mpr ⟨le_refl s, h2⟩)
        rw [hsi, valS_cons_self] at hv
        exact hv rfl
    refine ⟨by omega, h2, by omega, ?_, ?_, ?_⟩
    · intro j hj
      have hij : i < j := by
        have := (Finset.mem_Icc.mp hj).1
        omega
      rw [← valS_cons_gt 0 rs i j hij]
      exact h4 j hj
    · by_cases hse : s = i + 1
      · exact Or.inl hse
      · refine Or.inr ?_
        rcases h5 with h5 | h5
        · omega
        · rw [← valS_cons_gt 0 rs i (s - 1) (by omega)]
          exact h5
    · rw [← valS_cons_gt 0 rs i (e + 1) (by omega)]
      exact h6
  · rintro ⟨h1, h2, h3, h4, h5, h6⟩
    refine ⟨by omega, h2, by rw [List.length_cons]; omega, ?_, ?_, ?_⟩
    · intro j hj
      have hij : i < j := by
        have := (Finset.mem_Icc.mp hj).1
        omega
      rw [valS_cons_gt 0 rs i j hij]
      exact h4 j hj
    · refine Or.inr ?_
      by_cases hse : s = i + 1
      · have h7 : s - 1 = i := by omega
        rw [h7, valS_cons_self]
      · rcases h5 with h5 | h5
        · omega
        · rw [valS_cons_gt 0 rs i (s - 1) (by omega)]
          exact h5
    · rw [valS_cons_gt 0 rs i (e + 1) (by omega)]
      exact h6

theorem maxRunS_cons_pos (f : ℚ) (rs : List ℚ) (i s e : ℕ) (hf : f ≠ 0) :
    MaxRunS (f :: rs) i s e ↔
      ((s = i ∧ e = i + (rs.takeWhile nzb).length) ∨
        MaxRunS (rs.drop ((rs.takeWhile nzb).length + 1))
          (i + (rs.takeWhile nzb).length + 2) s e) := by
  constructor
  · rintro ⟨h1, h2, h3, h4, h5, h6⟩
    rw [List.length_cons] at h3
    by_cases hsi : s = i
    · left
      refine ⟨hsi, ?_⟩
      have hge : e - i ≤ (rs.takeWhile nzb).length := by
        apply takeWhile_ge rs (e - i) (by omega)
        intro j hj
        have hmem := h4 (i + 1 + j) (Finset.mem_Icc.mpr ⟨by omega, by omega⟩)
        rw [valS_cons_gt f rs i (i + 1 + j) (by omega),
            valS_in rs (i + 1) (i + 1 + j) (by omega) (by omega)] at hmem
        rw [show i + 1 + j - (i + 1) = j from by omega] at hmem
        exact hmem
      have hcl : (rs.takeWhile nzb).length ≤ rs.length := (List.takeWhile_sublist nzb).length_le
      have hle : (rs.takeWhile nzb).length ≤ e - i := by
        by_contra hlt
        push_neg at hlt
        rw [valS_cons_gt f rs i (e + 1) (by omega),
            valS_in rs (i + 1) (e + 1) (by omega) (by omega)] at h6
        rw [show e + 1 - (i + 1) = e - i from by omega] at h6
        exact takeWhile_getD_ne rs (e - i) hlt h6
      omega
    · right
      have h5a : valS (f :: rs) i (s - 1) = 0 := h5.resolve_left hsi
      have hs2 : i + 2 ≤ s := by
        by_contra hlt
        push_neg at hlt
        have hs1 : s - 1 = i := by omega
        rw [hs1, valS_cons_self] at h5a
        exact hf h5a
      have hz2 : rs.getD (s - 1 - (i + 1)) 0 = 0 := by
        rw [valS_cons_gt f rs i (s - 1) (by omega),
            valS_in rs (i + 1) (s - 1) (by omega) (by omega)] at h5a
        exact h5a
      have hsc : i + (rs.takeWhile nzb).length + 2 ≤ s := by
        by_contra hlt
        push_neg at hlt
        exact takeWhile_getD_ne rs (s - 1 - (i + 1)) (by omega) hz2
      have hcl : (rs.takeWhile nzb).length < rs.length := by omega
      refine ⟨hsc, h2, ?_, ?_, ?_, ?_⟩
      · rw [List.length_drop]
        omega
      · intro j hj
        obtain ⟨hj1, hj2⟩ := Finset.mem_Icc.mp hj
        rw [valS_cons_drop f rs i (rs.takeWhile nzb).length j (by omega)]
        exact h4 j hj
      · by_cases hseq : s = i + (rs.takeWhile nzb).length + 2
        · exact Or.inl hseq
        · refine Or.inr ?_
          rw [valS_cons_drop f rs i (rs.takeWhile nzb).length (s - 1) (by omega)]
          exact h5a
      · rw [valS_cons_drop f rs i (rs.takeWhile nzb).length (e + 1) (by omega)]
        exact h6
  · rintro (⟨hsi, hei⟩ | ⟨h1, h2, h3, h4, h5, h6⟩)
    · have hcl : (rs.takeWhile nzb).length ≤ rs.length := (List.takeWhile_sublist nzb).length_le
      refine ⟨by omega, by omega, ?_, ?_, ?_, ?_⟩
      · rw [List.length_cons]
        omega
      · intro j hj
        obtain ⟨hj1, hj2⟩ := Finset.mem_Icc.mp hj
        by_cases hji : j = i
        · rw [hji, valS_cons_self]
          exact hf
        · rw [valS_cons_gt f rs i j (by omega),
              valS_in rs (i + 1) j (by omega) (by omega)]
          exact takeWhile_getD_ne rs (j - (i + 1)) (by omega)
      · exact Or.inl hsi
      · rw [hei]
        by_cases hcr : (rs.takeWhile nzb).length < rs.length
        · rw [valS_cons_gt f rs i (i + (rs.takeWhile nzb).length + 1) (by omega),
              valS_in rs (i + 1) (i + (rs.takeWhile nzb).length + 1) (by omega) (by omega)]
          rw [show i + (rs.takeWhile nzb).length + 1 - (i + 1) =
                (rs.takeWhile nzb).length from by omega]
          exact takeWhile_stop rs hcr
        · apply valS_out
          rw [List.length_cons]
          omega
    · have hlen2 : (rs.takeWhile nzb).length + 1 ≤ rs.length := by
        rw [List.length_drop] at h3
        omega
      rw [List.length_drop] at h3
      refine ⟨by omega, h2, ?_, ?_, ?_, ?_⟩
      · rw [List.length_cons]
        omega
      · intro j hj
        obtain ⟨hj1, hj2⟩ := Finset.mem_Icc.mp hj
        rw [← valS_cons_drop f rs i (rs.takeWhile nzb).length j (by omega)]
        exact h4 j hj
      · refine Or.inr ?_
        by_cases hseq : s = i + (rs.takeWhile nzb).length + 2
        · rw [show s - 1 = i + (rs.takeWhile nzb).length + 1 from by omega]
          rw [valS_cons_gt f rs i (i + (rs.takeWhile nzb).length + 1) (by omega),
              valS_in rs (i + 1) (i + (rs.takeWhile nzb).length + 1) (by omega) (by omega)]
          rw [show i + (rs.takeWhile nzb).length + 1 - (i + 1) =
                (rs.takeWhile nzb).length from by omega]
          exact takeWhile_stop rs (by omega)
        · have h5a := h5.resolve_left hseq
          rw [← valS_cons_drop f rs i (rs.takeWhile nzb).length (s - 1) (by omega)]
          exact h5a
      · rw [← valS_cons_drop f rs i (rs.takeWhile nzb).length (e + 1) (by omega)]
        exact h6


theorem segsAux_none_mem : ∀ (n : ℕ) (rest : List ℚ), rest.length ≤ n →
    ∀ (i s e : ℕ), ((s, e) ∈ segsAux rest i none ↔ MaxRunS rest i s e) := by
  intro n
  induction n with
  | zero =>
    intro rest hn i s e
    have hnil : rest = [] := List.length_eq_zero.mp (by omega)
    subst hnil
    constructor
    · intro h
      exact absurd h (by simp [segsAux])
    · rintro ⟨h1, h2, h3, -, -, -⟩
      simp only [List.length_nil] at h3
      omega
  | succ n ih =>
    intro rest hn i s e
    cases rest with
    | nil =>
      constructor
      · intro h
        exact absurd h (by simp [segsAux])
      · rintro ⟨h1, h2, h3, -, -, -⟩
        simp only [List.length_nil] at h3
        omega
    | cons f rs =>
      simp only [List.length_cons] at hn
      by_cases hf : f = 0
      · subst hf
        rw [show segsAux ((0 : ℚ) :: rs) i none = segsAux rs (i + 1) none from by
          rw [segsAux, if_neg (by simp)]]
        rw [ih rs (by omega) (i + 1) s e]
        exact (maxRunS_cons_zero rs i s e).symm
      · rw [show segsAux (f :: rs) i none = segsAux rs (i + 1) (some i) from by
          rw [segsAux, if_pos hf]]
        rw [segsAux_some rs (i + 1) i (by omega)]
        simp only [Nat.add_sub_cancel]
        rw [List.mem_cons]
        rw [show i + 1 + (rs.takeWhile nzb).length + 1 =
              i + (rs.takeWhile nzb).length + 2 from by omega]
        rw [ih (rs.drop ((rs.takeWhile nzb).length + 1))
              (by rw [List.length_drop]; omega) (i + (rs.takeWhile nzb).length + 2) s e]
        rw [maxRunS_cons_pos f rs i s e hf]
        simp [Prod.ext_iff]

theorem segsAux_none_pairwise : ∀ (n : ℕ) (rest : List ℚ), rest.length ≤ n → ∀ (i : ℕ),
    List.Pairwise (fun a b : ℕ × ℕ => a.2 < b.1) (segsAux rest i none) := by
  intro n
  induction n with
  | zero =>
    intro rest hn i
    have hnil : rest = [] := List.length_eq_zero.mp (by omega)
    subst hnil
    exact List.Pairwise.nil
  | succ n ih =>
    intro rest hn i
    cases rest with
    | nil => exact List.Pairwise.nil
    | cons f rs =>
      simp only [List.length_cons] at hn
      by_cases hf : f = 0
      · subst hf
        rw [show segsAux ((0 : ℚ) :: rs) i none = segsAux rs (i + 1) none from by
          rw [segsAux, if_neg (by simp)]]
        exact ih rs (by omega) (i + 1)
      · rw [show segsAux (f :: rs) i none = segsAux rs (i + 1) (some i) from by
          rw [segsAux, if_pos hf]]
        rw [segsAux_some rs (i + 1) i (by omega)]
        simp only [Nat.add_sub_cancel]
        refine List.Pairwise.cons ?_
          (ih (rs.drop ((rs.takeWhile nzb).length + 1)) (by rw [List.length_drop]; omega)
            (i + 1 + (rs.takeWhile nzb).length + 1))
        rintro ⟨s, e⟩ hb
        have hm := (segsAux_none_mem (rs.drop ((rs.takeWhile nzb).length + 1)).length
          (rs.drop ((rs.takeWhile nzb).length + 1)) le_rfl
          (i + 1 + (rs.takeWhile nzb).length + 1) s e).mp hb
        have hs := hm.1
        show i + (rs.takeWhile nzb).length < s
        omega

theorem val_eq_valS (forms : List ℚ) (j : ℕ) : val forms j = valS forms 1 j := by
  unfold val valS
  by_cases hj : j = 0
  · subst hj
    rw [if_pos rfl, if_neg (by omega)]
  · rw [if_neg hj]
    by_cases hin : 1 ≤ j ∧ j < 1 + forms.length
    · rw [if_pos hin]
    · rw [if_neg hin]
      exact List.getD_eq_default _ _ (by omega)

theorem maxRun_iff_maxRunS (forms : List ℚ) (s e : ℕ) :
    MaxRun forms s e ↔ MaxRunS forms 1 s e := by
  constructor
  · rintro ⟨h1, h2, h3, h4, h5, h6⟩
    refine ⟨h1, h2, by omega, fun j hj => by rw [← val_eq_valS]; exact h4 j hj, ?_,
      by rw [← val_eq_valS]; exact h6⟩
    by_cases hs1 : s = 1
    · exact Or.inl hs1
    · exact Or.inr (by rw [← val_eq_valS]; exact h5)
  · rintro ⟨h1, h2, h3, h4, h5, h6⟩
    refine ⟨h1, h2, by omega, fun j hj => by rw [val_eq_valS]; exact h4 j hj, ?_,
      by rw [val_eq_valS]; exact h6⟩
    rcases h5 with h5 | h5
    · subst h5
      simp [val]
    · rw [val_eq_valS]
      exact h5

/-- C3: `find_valid_segments_by_form` returns exactly the maximal runs of
non-zero `Form` values as closed 1-based `Index` intervals (a run cut by the
end of the stream closes at the final `Index`), pairwise disjoint and sorted
in stream order; an all-zero stream yields `[]` and a non-empty all-non-zero
stream yields the single interval covering the whole stream. -/
theorem C3_theorem (forms : List ℚ) :
    (∀ s e, (s, e) ∈ find_valid_segments_by_form forms ↔ MaxRun forms s e) ∧
    List.Pairwise (fun a b : ℕ × ℕ => a.2 < b.1) (find_valid_segments_by_form forms) ∧
    ((∀ x ∈ forms, x = 0) → find_valid_segments_by_form forms = []) ∧
    (forms ≠ [] → (∀ x ∈ forms, x ≠ 0) →
      find_valid_segments_by_form forms = [(1, forms.length)]) := by
  have hmem_iff : ∀ s e, (s, e) ∈ find_valid_segments_by_form forms ↔ MaxRun forms s e := by
    intro s e
    unfold find_valid_segments_by_form
    rw [segsAux_none_mem forms.length forms le_rfl 1 s e]
    exact (maxRun_iff_maxRunS forms s e).symm
  refine ⟨hmem_iff, ?_, ?_, ?_⟩
  · unfold find_valid_segments_by_form
    exact segsAux_none_pairwise forms.length forms le_rfl 1
  · intro hz
    by_contra hne
    obtain ⟨⟨s, e⟩, hmem⟩ := List.exists_mem_of_ne_nil _ hne
    obtain ⟨h1, h2, h3, h4, h5, h6⟩ := (hmem_iff s e).mp hmem
    have hv := h4 s (Finset.mem_Icc.mpr ⟨le_refl s, h2⟩)
    unfold val at hv
    rw [if_neg (by omega), List.getD_eq_getElem forms 0 (by omega)] at hv
    exact hv (hz _ (List.getElem_mem _))
  · intro hne hnz
    have hlen1 : 1 ≤ forms.length := List.length_pos.mpr hne
    have hmem1 : (1, forms.length) ∈ find_valid_segments_by_form forms := by
      refine (hmem_iff 1 forms.length).mpr ⟨le_refl 1, hlen1, le_refl _, ?_, by simp [val], ?_⟩
      · intro j hj
        obtain ⟨hj1, hj2⟩ := Finset.mem_Icc.mp hj
        unfold val
        rw [if_neg (by omega), List.getD_eq_getElem forms 0 (by omega)]
        exact hnz _ (List.getElem_mem _)
      · unfold val
        rw [if_neg (by omega)]
        exact List.getD_eq_default _ _ (by omega)
    have huniq : ∀ p ∈ find_valid_segments_by_form forms, p = (1, forms.length) := by
      rintro ⟨s, e⟩ hp
      obtain ⟨h1, h2, h3, h4, h5, h6⟩ := (hmem_iff s e).mp hp
      have hs : s = 1 := by
        by_contra hs1
        unfold val at h5
        rw [if_neg (by omega), List.getD_eq_getElem forms 0 (by omega)] at h5
        exact hnz _ (List.getElem_mem _) h5
      have he : e = forms.length := by
        by_contra he1
        unfold val at h6
        rw [if_neg (by omega)] at h6
        simp only [Nat.add_sub_cancel] at h6
        rw [List.getD_eq_getElem forms 0 (by omega)] at h6
        exact hnz _ (List.getElem_mem _) h6
      rw [hs, he]
    have hpw := segsAux_none_pairwise forms.length forms le_rfl 1
    cases hL : find_valid_segments_by_form forms with
    | nil =>
      rw [hL] at hmem1
      simp at hmem1
    | cons a tl =>
      have ha : a = (1, forms.length) := huniq a (by rw [hL]; exact List.mem_cons_self a tl)
      cases tl with
      | nil => rw [ha]
      | cons b tl2 =>
        have hb : b = (1, forms.length) :=
          huniq b (by rw [hL]; exact List.mem_cons_of_mem _ (List.mem_cons_self b tl2))
        rw [show segsAux forms 1 none = find_valid_segments_by_form forms from rfl, hL] at hpw
        have hlt := (List.pairwise_cons.mp hpw).1 b (List.mem_cons_self b tl2)
        rw [ha, hb] at hlt
        exact absurd hlt (by omega)

theorem C3_witness :
    find_valid_segments_by_form [(0 : ℚ), 0] = [] ∧
    find_valid_segments_by_form [(1 : ℚ), 2] = [(1, 2)] ∧
    MaxRun [(1 : ℚ), 0, 2] 3 3 :=
  ⟨(C3_theorem [0, 0]).2.2.1 (by with_unfolding_all decide),
   (C3_theorem [1, 2]).2.2.2 (by simp) (by with_unfolding_all decide),
   ((C3_theorem [1, 0, 2]).1 3 3).mp (by with_unfolding_all decide)⟩


/-! ## Claim C9 -/

theorem ffLoop_mem : ∀ (l : List (ℕ × Option ℚ)) (v : ℕ),
    ffLoop l = some v → v ∈ l.map Prod.fst := by
  intro l
  induction l with
  | nil =>
    intro v h
    exact absurd h (by simp [ffLoop])
  | cons p tl ih =>
    intro v h
    cases tl with
    | nil => exact absurd h (by simp [ffLoop])
    | cons q tl2 =>
      obtain ⟨i, a⟩ := p
      obtain ⟨j, b⟩ := q
      simp only [ffLoop] at h
      split at h
      · rw [Option.some.injEq] at h
        rw [List.map_cons, ← h]
        exact List.mem_cons_self i _
      · have hm := ih v h
        rw [List.map_cons]
        exact List.mem_cons_of_mem i hm

theorem find_fill_mem (seg : List (ℕ × Option ℚ)) (v : ℕ) (h : find_fill seg = some v) :
    v ∈ seg.map Prod.fst := by
  unfold find_fill at h
  by_cases hall : seg.all (fun p => p.2.isNone)
  · rw [if_pos hall] at h
    exact absurd h (by simp)
  · rw [if_neg hall] at h
    have hm := ffLoop_mem _ v h
    obtain ⟨p, hp, hpv⟩ := List.mem_map.mp hm
    exact List.mem_map.mpr ⟨p, List.mem_of_mem_filter hp, hpv⟩

theorem find_fill_slice_bounds (t : TableU) (s e v : ℕ)
    (h : find_fill (ffInput (sliceU t s e)) = some v) : s ≤ v ∧ v ≤ e := by
  have hm := find_fill_mem _ v h
  obtain ⟨q, hq, hqv⟩ := List.mem_map.mp hm
  unfold ffInput at hq
  obtain ⟨p, hp, hpq⟩ := List.mem_map.mp hq
  unfold sliceU at hp
  have hb := of_decide_eq_true (List.mem_filter.mp hp).2
  rw [← hqv, ← hpq]
  exact hb

theorem perSegment_idx (t : TableU) (leak : Option LeakInfo) (seg : ℕ × ℕ) (r : RecordU)
    (h : perSegment t leak seg = some r) :
    find_fill (ffInput (sliceU t seg.1 seg.2)) = some r.idx := by
  unfold perSegment at h
  cases hff : find_fill (ffInput (sliceU t seg.1 seg.2)) with
  | none =>
    rw [hff] at h
    have h2 : (none : Option RecordU) = some r := h
    exact absurd h2 (by simp)
  | some fv =>
    rw [hff] at h
    have h2 : (if heating_to_fill t [seg] = [] then none
        else if start_to_fill t [seg] = [] then (none : Option RecordU)
        else some (mkRecord t leak seg fv)) = some r := h
    by_cases hg1 : heating_to_fill t [seg] = []
    · rw [if_pos hg1] at h2
      exact absurd h2 (by simp)
    · rw [if_neg hg1] at h2
      by_cases hg2 : start_to_fill t [seg] = []
      · rw [if_pos hg2] at h2
        exact absurd h2 (by simp)
      · rw [if_neg hg2] at h2
        have h3 := Option.some.inj h2
        rw [← h3]
        rfl

theorem pds_mem (t : TableU) (leak : Option LeakInfo) (r : RecordU)
    (h : r ∈ process_dataframe_segments t leak) :
    ∃ seg ∈ find_valid_segments_by_form (t.rows.map (fun row => row.form)),
      perSegment t leak seg = some r := by
  unfold process_dataframe_segments at h
  by_cases hreq : (!t.hasRequired) = true
  · rw [if_pos hreq] at h
    exact absurd h (by simp)
  · rw [if_neg hreq] at h
    by_cases hsegs : find_valid_segments_by_form (t.rows.map (fun row => row.form)) = []
    · rw [if_pos hsegs] at h
      exact absurd h (by simp)
    · rw [if_neg hsegs] at h
      exact List.mem_filterMap.mp h

/-- C9: every record emitted by `process_dataframe_segments` stems from a
segment whose `find_fill` detected a fill `Index` (the record's own
`Index`), and a segment on which `find_fill` finds nothing contributes no
record: no emitted record's `Index` lies inside such a segment. -/
theorem C9_theorem (t : TableU) (leak : Option LeakInfo) :
    (∀ r ∈ process_dataframe_segments t leak,
      ∃ seg ∈ find_valid_segments_by_form (t.rows.map (fun row => row.form)),
        find_fill (ffInput (sliceU t seg.1 seg.2)) = some r.idx) ∧
    (∀ s e, (s, e) ∈ find_valid_segments_by_form (t.rows.map (fun row => row.form)) →
      find_fill (ffInput (sliceU t s e)) = none →
      ∀ r ∈ process_dataframe_segments t leak, ¬(s ≤ r.idx ∧ r.idx ≤ e)) := by
  constructor
  · intro r hr
    obtain ⟨seg2, hseg2, hps⟩ := pds_mem t leak r hr
    exact ⟨seg2, hseg2, perSegment_idx t leak seg2 r hps⟩
  · intro s e hseg hnone r hr hcontra
    obtain ⟨seg2, hseg2, hps⟩ := pds_mem t leak r hr
    have hidx := perSegment_idx t leak seg2 r hps
    obtain ⟨hb1, hb2⟩ := find_fill_slice_bounds t seg2.1 seg2.2 r.idx hidx
    obtain ⟨hc1, hc2⟩ := hcontra
    have hpw : List.Pairwise (fun a b : ℕ × ℕ => a.2 < b.1)
        (find_valid_segments_by_form (t.rows.map (fun row => row.form))) := by
      unfold find_valid_segments_by_form
      exact segsAux_none_pairwise (t.rows.map (fun row => row.form)).length
        (t.rows.map (fun row => row.form)) le_rfl 1
    obtain ⟨i, hi, hieq⟩ := List.getElem_of_mem hseg
    obtain ⟨j, hj, hjeq⟩ := List.getElem_of_mem hseg2
    rcases Nat.lt_trichotomy i j with hij | hij | hij
    · have hrel := List.pairwise_iff_getElem.mp hpw i j hi hj hij
      rw [hieq, hjeq] at hrel
      have h2 : e < seg2.1 := hrel
      omega
    · subst hij
      rw [hieq] at hjeq
      rw [← hjeq] at hidx
      have hidx2 : find_fill (ffInput (sliceU t s e)) = some r.idx := hidx
      rw [hnone] at hidx2
      exact absurd hidx2 (by simp)
    · have hrel := List.pairwise_iff_getElem.mp hpw j i hj hi hij
      rw [hieq, hjeq] at hrel
      have h2 : seg2.2 < s := hrel
      omega

theorem C9_witness :
    (8, 9) ∈ find_valid_segments_by_form (exT.rows.map (fun row => row.form)) ∧
    find_fill (ffInput (sliceU exT 8 9)) = none ∧
    exRec ∈ process_dataframe_segments exT none ∧
    ¬(8 ≤ exRec.idx ∧ exRec.idx ≤ 9) :=
  ⟨by with_unfolding_all decide, by with_unfolding_all decide,
   by with_unfolding_all decide,
   (C9_theorem exT none).2 8 9 (by with_unfolding_all decide)
     (by with_unfolding_all decide) exRec (by with_unfolding_all decide)⟩

end Programms
